import Mathlib

set_option maxRecDepth 100000

/-!
# Hyperion: shallow embedding and verification of spec claims

This file embeds the core data model and algorithms of the hyperion
proof-of-work blockchain (crates `hyperion-core` and `hyperion-node`) into
Lean 4 and settles the specification claims against it.

Bytes are modelled as `Nat` values (well-formed inputs keep them below 256),
byte strings as `List Nat`.  Machine integers are `Nat` with explicit
`% 2 ^ w` where the source can overflow.  Code that can panic is modelled
with `Option` (`none` = panic); fallible operations return sums.

The serialization format is bincode 2 with its `standard()` configuration
(little-endian, variable-length integer encoding), which is what
`Serializable::serialize`/`from_bytes` in `src/hyperion-core/src/block/mod.rs`
use.  SHA-256 is the standard FIPS 180-4 function provided to the source by
the `sha2` crate; it is implemented here concretely so that every claim is
executable.
-/

namespace Hyperion

/-! ## Byte-string helpers -/

/-- The `k` little-endian bytes of `n` (the fixed-width payload of an integer). -/
def leBytesF : Nat → Nat → List Nat
  | 0, _ => []
  | k + 1, n => n % 256 :: leBytesF k (n / 256)

/-- The `k` big-endian bytes of `n`. -/
def beBytesF (k n : Nat) : List Nat := (leBytesF k n).reverse

/-- Value of a little-endian byte string. -/
def leNat : List Nat → Nat
  | [] => 0
  | b :: l => b + 256 * leNat l

/-- Value of a big-endian byte string (`BigUint::from_bytes_be`). -/
def beNat (l : List Nat) : Nat := l.foldl (fun acc b => acc * 256 + b) 0

/-- Minimal little-endian digits of `n`, fuelled so that it reduces in the
kernel.  The fuel `n` always suffices: `n` has at most `n` base-256 digits. -/
def leBytesAux : Nat → Nat → List Nat
  | 0, _ => []
  | fuel + 1, n => if n = 0 then [] else n % 256 :: leBytesAux fuel (n / 256)

/-- Minimal little-endian digits of `n` (`[]` for `0`). -/
def leBytes (n : Nat) : List Nat := leBytesAux n n

/-- Minimal big-endian bytes of `n`, with `[0]` for `0`
(`BigUint::to_bytes_be`). -/
def beBytes (n : Nat) : List Nat := if n = 0 then [0] else (leBytes n).reverse

/-! ## SHA-256 (FIPS 180-4), over byte lists -/

/-- Right rotation of a 32-bit word. -/
def rotr32 (x n : Nat) : Nat := ((x >>> n) ||| (x <<< (32 - n))) % 4294967296

/-- The eight 32-bit words of the SHA-256 state. -/
structure Hash8 where
  a : Nat
  b : Nat
  c : Nat
  d : Nat
  e : Nat
  f : Nat
  g : Nat
  h : Nat
deriving DecidableEq, Repr

/-- SHA-256 initial state. -/
def shaInit : Hash8 :=
  ⟨0x6A09E667, 0xBB67AE85, 0x3C6EF372, 0xA54FF53A,
   0x510E527F, 0x9B05688C, 0x1F83D9AB, 0x5BE0CD19⟩

/-- SHA-256 round constants. -/
def K256 : List Nat :=
  [0x428A2F98, 0x71374491, 0xB5C0FBCF, 0xE9B5DBA5,
   0x3956C25B, 0x59F111F1, 0x923F82A4, 0xAB1C5ED5,
   0xD807AA98, 0x12835B01, 0x243185BE, 0x550C7DC3,
   0x72BE5D74, 0x80DEB1FE, 0x9BDC06A7, 0xC19BF174,
   0xE49B69C1, 0xEFBE4786, 0x0FC19DC6, 0x240CA1CC,
   0x2DE92C6F, 0x4A7484AA, 0x5CB0A9DC, 0x76F988DA,
   0x983E5152, 0xA831C66D, 0xB00327C8, 0xBF597FC7,
   0xC6E00BF3, 0xD5A79147, 0x06CA6351, 0x14292967,
   0x27B70A85, 0x2E1B2138, 0x4D2C6DFC, 0x53380D13,
   0x650A7354, 0x766A0ABB, 0x81C2C92E, 0x92722C85,
   0xA2BFE8A1, 0xA81A664B, 0xC24B8B70, 0xC76C51A3,
   0xD192E819, 0xD6990624, 0xF40E3585, 0x106AA070,
   0x19A4C116, 0x1E376C08, 0x2748774C, 0x34B0BCB5,
   0x391C0CB3, 0x4ED8AA4A, 0x5B9CCA4F, 0x682E6FF3,
   0x748F82EE, 0x78A5636F, 0x84C87814, 0x8CC70208,
   0x90BEFFFA, 0xA4506CEB, 0xBEF9A3F7, 0xC67178F2]

/-- SHA-256 `Ch` function (32-bit complement via xor with all-ones). -/
def shaCh (x y z : Nat) : Nat := (x &&& y) ^^^ ((x ^^^ 0xffffffff) &&& z)

/-- SHA-256 `Maj` function. -/
def shaMaj (x y z : Nat) : Nat := (x &&& y) ^^^ (x &&& z) ^^^ (y &&& z)

/-- SHA-256 big sigma 0. -/
def bSig0 (x : Nat) : Nat := rotr32 x 2 ^^^ rotr32 x 13 ^^^ rotr32 x 22

/-- SHA-256 big sigma 1. -/
def bSig1 (x : Nat) : Nat := rotr32 x 6 ^^^ rotr32 x 11 ^^^ rotr32 x 25

/-- SHA-256 small sigma 0. -/
def sSig0 (x : Nat) : Nat := rotr32 x 7 ^^^ rotr32 x 18 ^^^ (x >>> 3)

/-- SHA-256 small sigma 1. -/
def sSig1 (x : Nat) : Nat := rotr32 x 17 ^^^ rotr32 x 19 ^^^ (x >>> 10)

/-- Group a byte list into big-endian 32-bit words. -/
def toWords : List Nat → List Nat
  | a :: b :: c :: d :: rest => (((a * 256 + b) * 256 + c) * 256 + d) :: toWords rest
  | _ => []

/-- Extend the 16-word message schedule by `k` further words. -/
def extendW : List Nat → Nat → List Nat
  | ws, 0 => ws
  | ws, k + 1 =>
    let i := ws.length
    let w := (sSig1 (ws.getD (i - 2) 0) + ws.getD (i - 7) 0 +
              sSig0 (ws.getD (i - 15) 0) + ws.getD (i - 16) 0) % 4294967296
    extendW (ws ++ [w]) k

/-- One SHA-256 round, consuming a `(constant, scheduled word)` pair. -/
def shaRound (st : Hash8) (kw : Nat × Nat) : Hash8 :=
  let t1 := (st.h + bSig1 st.e + shaCh st.e st.f st.g + kw.1 + kw.2) % 4294967296
  let t2 := (bSig0 st.a + shaMaj st.a st.b st.c) % 4294967296
  ⟨(t1 + t2) % 4294967296, st.a, st.b, st.c,
   (st.d + t1) % 4294967296, st.e, st.f, st.g⟩

/-- Word-wise modular addition of two SHA-256 states. -/
def add8 (x y : Hash8) : Hash8 :=
  ⟨(x.a + y.a) % 4294967296, (x.b + y.b) % 4294967296,
   (x.c + y.c) % 4294967296, (x.d + y.d) % 4294967296,
   (x.e + y.e) % 4294967296, (x.f + y.f) % 4294967296,
   (x.g + y.g) % 4294967296, (x.h + y.h) % 4294967296⟩

/-- Compress one 64-byte block into the state. -/
def compressBlock (st : Hash8) (blockBytes : List Nat) : Hash8 :=
  let ws := extendW (toWords blockBytes) 48
  add8 st ((K256.zip ws).foldl shaRound st)

/-- SHA-256 padding: `0x80`, zeros, 64-bit big-endian bit length. -/
def shaPad (msg : List Nat) : List Nat :=
  msg ++ 0x80 :: List.replicate ((64 + 55 - msg.length % 64) % 64) 0 ++
    beBytesF 8 (8 * msg.length)

/-- Compress a padded message 64 bytes at a time (fuelled for reduction). -/
def shaBlocks : Nat → Hash8 → List Nat → Hash8
  | 0, st, _ => st
  | _ + 1, st, [] => st
  | fuel + 1, st, b :: rest =>
    shaBlocks fuel (compressBlock st ((b :: rest).take 64)) ((b :: rest).drop 64)

/-- SHA-256 of a byte list, as 32 bytes. -/
def sha256 (msg : List Nat) : List Nat :=
  let padded := shaPad msg
  let st := shaBlocks padded.length shaInit padded
  beBytesF 4 st.a ++ beBytesF 4 st.b ++ beBytesF 4 st.c ++ beBytesF 4 st.d ++
  beBytesF 4 st.e ++ beBytesF 4 st.f ++ beBytesF 4 st.g ++ beBytesF 4 st.h

/-- Source: `double_sha256(data) = SHA256(SHA256(data))`
(`src/hyperion-core/src/crypto/mod.rs`). -/
def double_sha256 (msg : List Nat) : List Nat := sha256 (sha256 msg)

/-! ## Data model (`src/hyperion-core/src/block/`) -/

/-- Source: `Header` (`src/hyperion-core/src/block/header.rs`): fields in declaration
order `version, time, difficulty_compact, nonce, prev_hash, merkle_root`. -/
structure Header where
  version : Nat
  time : Nat
  difficulty_compact : Nat
  nonce : Nat
  prev_hash : List Nat
  merkle_root : List Nat
deriving DecidableEq, Repr

/-- Source: `Transaction` (`src/hyperion-core/src/block/transaction.rs`): opaque
input/output byte vectors. -/
structure Transaction where
  inputs : List (List Nat)
  outputs : List (List Nat)
deriving DecidableEq, Repr

/-- Source: `Block` (`src/hyperion-core/src/block/block.rs`). -/
structure Block where
  header : Header
  transactions : List Transaction
deriving DecidableEq, Repr

/-- Source: `Blockchain` (`src/hyperion-core/src/chain/blockchain.rs`): an ordered
sequence of blocks. -/
structure Blockchain where
  blocks : List Block
deriving DecidableEq, Repr

/-! ## Canonical serialization (bincode 2, `standard()` configuration)

`Serializable::serialize` (`src/hyperion-core/src/block/mod.rs`) encodes with
`bincode::encode_to_vec(self, config::standard())`: fields in declaration
order, unsigned integers in bincode's variable-length encoding (a value below
251 is one byte; otherwise a marker byte 251/252/253 followed by the
full-width little-endian 2/4/8-byte payload), fixed-size byte arrays written
raw, and sequences prefixed by their length as a variable-length integer. -/

/-- bincode 2 variable-length encoding of an unsigned integer (< `2 ^ 64`). -/
def vEnc (n : Nat) : List Nat :=
  if n < 251 then [n]
  else if n < 2 ^ 16 then 251 :: leBytesF 2 n
  else if n < 2 ^ 32 then 252 :: leBytesF 4 n
  else 253 :: leBytesF 8 n

/-- Encoding of a byte vector: length prefix then raw bytes. -/
def encBytes (l : List Nat) : List Nat := vEnc l.length ++ l

/-- Source: `Header::serialize`. -/
def Header.serialize (h : Header) : List Nat :=
  vEnc h.version ++ vEnc h.time ++ vEnc h.difficulty_compact ++ vEnc h.nonce ++
    h.prev_hash ++ h.merkle_root

/-- Source: `Transaction::serialize`. -/
def Transaction.serialize (t : Transaction) : List Nat :=
  vEnc t.inputs.length ++ (t.inputs.map encBytes).flatten ++
    vEnc t.outputs.length ++ (t.outputs.map encBytes).flatten

/-- Source: `Block::serialize`. -/
def Block.serialize (b : Block) : List Nat :=
  b.header.serialize ++ vEnc b.transactions.length ++
    (b.transactions.map Transaction.serialize).flatten

/-- Source: `Blockchain::serialize`. -/
def Blockchain.serialize (c : Blockchain) : List Nat :=
  vEnc c.blocks.length ++ (c.blocks.map Block.serialize).flatten

/-- Source: `Hashable::double_sha256` for headers: hash of the canonical bytes. -/
def Header.double_sha256 (h : Header) : List Nat :=
  Hyperion.double_sha256 h.serialize

/-- Source: `Hashable::double_sha256` for transactions. -/
def Transaction.double_sha256 (t : Transaction) : List Nat :=
  Hyperion.double_sha256 t.serialize

/-- Source: `Hashable::double_sha256` for blocks: note the preimage is the whole
block's canonical bytes (header followed by transactions). -/
def Block.double_sha256 (b : Block) : List Nat :=
  Hyperion.double_sha256 b.serialize

/-! ## Well-formedness

Field values representable by the source's machine types: `u32`/`u64`
integer fields, 32-byte hash arrays, byte values below 256, and sequence
lengths below `2 ^ 64` (automatic for any Rust `Vec`). -/

/-- All entries of a byte string are bytes. -/
def bytesOk (l : List Nat) : Prop := ∀ b ∈ l, b < 256

instance (l : List Nat) : Decidable (bytesOk l) := List.decidableBAll _ l

/-- Well-formed header. -/
def Header.wf (h : Header) : Prop :=
  h.version < 2 ^ 32 ∧ h.time < 2 ^ 32 ∧ h.difficulty_compact < 2 ^ 32 ∧
  h.nonce < 2 ^ 64 ∧ h.prev_hash.length = 32 ∧ bytesOk h.prev_hash ∧
  h.merkle_root.length = 32 ∧ bytesOk h.merkle_root

instance (h : Header) : Decidable h.wf := by unfold Header.wf; infer_instance

/-- Well-formed transaction. -/
def Transaction.wf (t : Transaction) : Prop :=
  t.inputs.length < 2 ^ 64 ∧ t.outputs.length < 2 ^ 64 ∧
  (∀ i ∈ t.inputs, i.length < 2 ^ 64 ∧ bytesOk i) ∧
  (∀ o ∈ t.outputs, o.length < 2 ^ 64 ∧ bytesOk o)

instance (t : Transaction) : Decidable t.wf := by
  unfold Transaction.wf; infer_instance

/-- Well-formed block. -/
def Block.wf (b : Block) : Prop :=
  b.header.wf ∧ b.transactions.length < 2 ^ 64 ∧
  ∀ t ∈ b.transactions, t.wf

instance (b : Block) : Decidable b.wf := by unfold Block.wf; infer_instance

/-- Well-formed blockchain. -/
def Blockchain.wf (c : Blockchain) : Prop :=
  c.blocks.length < 2 ^ 64 ∧ ∀ b ∈ c.blocks, b.wf

instance (c : Blockchain) : Decidable c.wf := by
  unfold Blockchain.wf; infer_instance

/-! ## Compact difficulty codec (`src/hyperion-core/src/consensus.rs`) -/

/-- The numeric value of a compact difficulty: `mantissa` shifted by
`8 · (exponent − 3)` (left for exponent above the bias, right below). -/
def compactVal (c : Nat) : Nat :=
  let expn := c >>> 24
  let mantissa := c &&& 0x007fffff
  if 3 < expn then mantissa <<< (8 * (expn - 3))
  else if expn < 3 then mantissa >>> (8 * (3 - expn))
  else mantissa

/-- Source: `compact_to_target` (`consensus.rs:99` / `header.rs:42`): render the
decoded value as 32 big-endian bytes, zero-padded on the left.  The source
computes `start = HASH_SIZE - bytes.len()` on `usize`, which panics when the
minimal big-endian rendering exceeds 32 bytes; `none` models that panic. -/
def compact_to_target (c : Nat) : Option (List Nat) :=
  let bytes := beBytes (compactVal c)
  if bytes.length ≤ 32 then
    some (List.replicate (32 - bytes.length) 0 ++ bytes)
  else none

/-- Source: `target_to_compact` (`consensus.rs:118`): compact encoding of a target
value.  `size <<< 24` is reduced mod `2 ^ 32` as the source computes it on
`u32`. -/
def target_to_compact (t : Nat) : Nat :=
  let bytes := beBytes t
  let size := bytes.length
  let mantissa0 :=
    if size ≤ 3 then
      (bytes.foldl (fun acc b => (acc <<< 8) ||| b) 0) <<< (8 * (3 - size))
    else
      (bytes.getD 0 0 <<< 16) ||| (bytes.getD 1 0 <<< 8) ||| bytes.getD 2 0
  let mantissa := if mantissa0 &&& 0x00800000 ≠ 0 then mantissa0 >>> 8 else mantissa0
  let size2 := if mantissa0 &&& 0x00800000 ≠ 0 then size + 1 else size
  ((size2 <<< 24) % 2 ^ 32) ||| (mantissa &&& 0x007fffff)

/-- Source: `validate_pow` (`consensus.rs:19`): the header's double-SHA256, read as a
big-endian integer, is at most the decoded target.  `none` models the panic
inside `compact_to_target`. -/
def validate_pow (h : Header) : Option Bool :=
  (compact_to_target h.difficulty_compact).map
    (fun tb => decide (beNat h.double_sha256 ≤ beNat tb))

/-! ## Merkle root (`src/hyperion-core/src/block/block.rs:67`) -/

/-- One layer of the Merkle tree: pair adjacent hashes, the last element of
an odd-length layer pairing with itself, each pair combined as
`double_sha256(left ++ right)`. -/
def merkleStep : List (List Nat) → List (List Nat)
  | [] => []
  | [a] => [Hyperion.double_sha256 (a ++ a)]
  | a :: b :: rest => Hyperion.double_sha256 (a ++ b) :: merkleStep rest

/-- Collapse layers until one hash remains (fuelled for kernel reduction;
the initial layer's length is always enough fuel). -/
def merkleLoop : Nat → List (List Nat) → List (List Nat)
  | 0, hs => hs
  | fuel + 1, hs => if hs.length ≤ 1 then hs else merkleLoop fuel (merkleStep hs)

/-- Source: `compute_merkle_root`: 32 zero bytes for an empty transaction list,
otherwise the collapsed layer of transaction hashes. -/
def compute_merkle_root (txs : List Transaction) : List Nat :=
  if txs.isEmpty then List.replicate 32 0
  else
    (merkleLoop txs.length (txs.map Transaction.double_sha256)).headD
      (List.replicate 32 0)

/-! ## Mining (`src/hyperion-core/src/consensus.rs:67`) -/

/-- Nonce search from `start` with the given fuel; `mine_block` starts at `0`
with fuel `2 ^ 64`, visiting every `u64` nonce once before the wrap-around
would revisit `0` and loop forever.  `none` models non-termination or a
panic inside `validate_pow`. -/
def findNonce (h : Header) : Nat → Nat → Option Nat
  | _, 0 => none
  | start, fuel + 1 =>
    (validate_pow { h with nonce := start }).bind fun ok =>
      if ok then some start else findNonce h ((start + 1) % 2 ^ 64) fuel

/-- Source: `mine_block`: set the nonce to `0`, increment (with wrap-around) until
`validate_pow` holds, and return the winning header. -/
def mine_block (h : Header) : Option Header :=
  (findNonce h 0 (2 ^ 64)).map (fun n => { h with nonce := n })

/-! ## Chain append and validation (`src/hyperion-core/src/chain/blockchain.rs`) -/

/-- Source: `BlockchainError` (`src/hyperion-core/src/error/blockchain.rs`). -/
inductive BlockchainError where
  | InvalidPreviousHash
  | InvalidMerkleRoot
  | InvalidPoW
deriving DecidableEq, Repr

/-- Source: `Blockchain::add_block`: check previous-hash linkage against the
double-SHA256 of the whole tail block, then the Merkle root, then (unless
`skip_pow`) the proof of work.  The source maps a PoW failure to
`BlockchainError::InvalidMerkleRoot` (`blockchain.rs:44`).  `none` models a
panic (empty chain, or target overflow inside `validate_pow`); `.inl` is the
returned error, `.inr` the chain with the block appended. -/
def Blockchain.add_block (c : Blockchain) (b : Block) (skip_pow : Bool) :
    Option (BlockchainError ⊕ Blockchain) :=
  (c.blocks.getLast?).bind fun tail =>
    if b.header.prev_hash ≠ tail.double_sha256 then
      some (.inl .InvalidPreviousHash)
    else if compute_merkle_root b.transactions ≠ b.header.merkle_root then
      some (.inl .InvalidMerkleRoot)
    else if skip_pow then some (.inr ⟨c.blocks ++ [b]⟩)
    else
      (validate_pow b.header).bind fun ok =>
        if ok then some (.inr ⟨c.blocks ++ [b]⟩)
        else some (.inl .InvalidMerkleRoot)

/-- The per-block Merkle and PoW checks of `validate_with_options`, with
`cont` the verdict for the remaining blocks. -/
def validateBlockStep (skip_pow : Bool) (b : Block) (cont : Option Bool) :
    Option Bool :=
  if compute_merkle_root b.transactions ≠ b.header.merkle_root then some false
  else if skip_pow then cont
  else
    (validate_pow b.header).bind fun ok =>
      if ok then cont else some false

/-- The loop of `Blockchain::validate_with_options`, carrying the previous
block (`none` at index 0, where the linkage check is skipped). -/
def validateFrom (skip_pow : Bool) : Option Block → List Block → Option Bool
  | _, [] => some true
  | none, b :: rest =>
    validateBlockStep skip_pow b (validateFrom skip_pow (some b) rest)
  | some p, b :: rest =>
    if b.header.prev_hash ≠ p.double_sha256 then some false
    else validateBlockStep skip_pow b (validateFrom skip_pow (some b) rest)

/-- Source: `Blockchain::validate_with_options`. -/
def Blockchain.validate_with_options (c : Blockchain) (skip_pow : Bool) :
    Option Bool :=
  validateFrom skip_pow none c.blocks

/-! ## Difficulty retargeting (`src/hyperion-core/src/consensus.rs:26`) -/

/-- Source: `adjust_difficulty`: every 10th block, rescale the tail target by the
ratio of actual to expected (6000 s) interval time, clamping the product to
`2 ^ 256 − 1`; otherwise return the tail's compact difficulty unchanged.
`none` models a panic (empty chain, or tail target wider than 32 bytes). -/
def adjust_difficulty (c : Blockchain) : Option Nat :=
  (c.blocks.getLast?).bind fun last =>
    if c.blocks.length < 10 ∨ c.blocks.length % 10 ≠ 0 then
      some last.header.difficulty_compact
    else
      (c.blocks.get? (c.blocks.length - 10)).bind fun first =>
      (compact_to_target last.header.difficulty_compact).bind fun tb =>
        let actual := last.header.time - first.header.time
        let t := beNat tb * max actual 1 / (600 * 10)
        let t2 := if 256 < Nat.log2 t + 1 ∧ t ≠ 0 then
          beNat (List.replicate 32 0xff) else t
        some (target_to_compact t2)

/-! ## Mempool (`src/hyperion-node/src/mempool.rs`) and the
`submit_block` mempool update (`src/hyperion-node/src/rpc/handlers.rs:87`) -/

/-- Source: `Mempool`: pending transactions in insertion order. -/
structure Mempool where
  txs : List Transaction
deriving DecidableEq, Repr

/-- Source: `Mempool::add_tx`: push at the back, no deduplication. -/
def Mempool.add_tx (p : Mempool) (tx : Transaction) : Mempool :=
  ⟨p.txs ++ [tx]⟩

/-- Source: `Mempool::remove_tx`: retain exactly the entries whose double-SHA256
differs from the given transaction's hash. -/
def Mempool.remove_tx (p : Mempool) (tx : Transaction) : Mempool :=
  ⟨p.txs.filter (fun t => t.double_sha256 ≠ tx.double_sha256)⟩

/-- The mempool update `submit_block` performs after a block is accepted:
`remove_tx` for each of the block's transactions in order. -/
def submitBlockMempool (p : Mempool) (b : Block) : Mempool :=
  b.transactions.foldl Mempool.remove_tx p

/-! ## Deserialization (`Serializable::from_bytes`)

`from_bytes` calls `bincode::decode_from_slice`, which reads one value off
the front of the slice and reports how many bytes it consumed; the source
then drops that count (`.map(|(decoded, _len)| decoded)`), so trailing bytes
are ignored.  Each decoder below returns the value and the unconsumed tail;
`none` models a `Deserialization` error. -/

/-- Read `k` raw bytes. -/
def dBytes : Nat → List Nat → Option (List Nat × List Nat)
  | 0, bs => some ([], bs)
  | _ + 1, [] => none
  | k + 1, b :: bs => (dBytes k bs).map (fun p => (b :: p.1, p.2))

/-- Read one variable-length unsigned integer. -/
def dVarint (bs : List Nat) : Option (Nat × List Nat) :=
  match bs with
  | [] => none
  | b :: rest =>
    if b < 251 then some (b, rest)
    else if b = 251 then (dBytes 2 rest).map (fun p => (leNat p.1, p.2))
    else if b = 252 then (dBytes 4 rest).map (fun p => (leNat p.1, p.2))
    else if b = 253 then (dBytes 8 rest).map (fun p => (leNat p.1, p.2))
    else none

/-- Read a length-prefixed byte vector. -/
def dByteVec (bs : List Nat) : Option (List Nat × List Nat) :=
  match dVarint bs with
  | none => none
  | some (n, rest) => dBytes n rest

/-- Read `n` consecutive values with the element decoder `d`. -/
def dList (d : List Nat → Option (α × List Nat)) :
    Nat → List Nat → Option (List α × List Nat)
  | 0, bs => some ([], bs)
  | n + 1, bs =>
    match d bs with
    | none => none
    | some (a, rest) =>
      match dList d n rest with
      | none => none
      | some (l, rest') => some (a :: l, rest')

/-- Read a length-prefixed sequence. -/
def dSeq (d : List Nat → Option (α × List Nat)) (bs : List Nat) :
    Option (List α × List Nat) :=
  match dVarint bs with
  | none => none
  | some (n, rest) => dList d n rest

/-- Decode a `Header`. -/
def dHeader (bs : List Nat) : Option (Header × List Nat) :=
  (dVarint bs).bind fun p1 =>
  (dVarint p1.2).bind fun p2 =>
  (dVarint p2.2).bind fun p3 =>
  (dVarint p3.2).bind fun p4 =>
  (dBytes 32 p4.2).bind fun p5 =>
  (dBytes 32 p5.2).bind fun p6 =>
  some (⟨p1.1, p2.1, p3.1, p4.1, p5.1, p6.1⟩, p6.2)

/-- Decode a `Transaction`. -/
def dTransaction (bs : List Nat) : Option (Transaction × List Nat) :=
  (dSeq dByteVec bs).bind fun p1 =>
  (dSeq dByteVec p1.2).bind fun p2 =>
  some (⟨p1.1, p2.1⟩, p2.2)

/-- Decode a `Block`. -/
def dBlock (bs : List Nat) : Option (Block × List Nat) :=
  (dHeader bs).bind fun p1 =>
  (dSeq dTransaction p1.2).bind fun p2 =>
  some (⟨p1.1, p2.1⟩, p2.2)

/-- Decode a `Blockchain`. -/
def dBlockchain (bs : List Nat) : Option (Blockchain × List Nat) :=
  (dSeq dBlock bs).bind fun p1 => some (⟨p1.1⟩, p1.2)

/-- Source: `Header::from_bytes`: decode and drop the consumed-length report. -/
def Header.from_bytes (bs : List Nat) : Option Header := (dHeader bs).map (·.1)

/-- Source: `Transaction::from_bytes`. -/
def Transaction.from_bytes (bs : List Nat) : Option Transaction :=
  (dTransaction bs).map (·.1)

/-- Source: `Block::from_bytes`. -/
def Block.from_bytes (bs : List Nat) : Option Block := (dBlock bs).map (·.1)

/-- Source: `Blockchain::from_bytes`. -/
def Blockchain.from_bytes (bs : List Nat) : Option Blockchain :=
  (dBlockchain bs).map (·.1)

/-! ## A reading of the spec's encoding claim, for comparison

Modelled from the spec: "every fixed-width integer field (u32 version, u32
time, u32 difficulty_compact, u64 nonce) is written as its full-width
little-endian bytes", fields in declaration order.  This is what the claim
asserts `Serializable::serialize` produces; it is compared against the
actual bincode encoding. -/
def headerFixedWidthLE (h : Header) : List Nat :=
  leBytesF 4 h.version ++ leBytesF 4 h.time ++ leBytesF 4 h.difficulty_compact ++
    leBytesF 8 h.nonce ++ h.prev_hash ++ h.merkle_root

/-! ## Concrete fixtures for counterexamples and witnesses -/

/-- A string of 32 zero bytes. -/
def zeros32 : List Nat := List.replicate 32 0

/-- A genesis-like header: version 1, time 0, easy difficulty, zero hashes. -/
def hdrA : Header := ⟨1, 0, 0x207fffff, 0, zeros32, zeros32⟩

/-- A block carrying `hdrA` and no transactions. -/
def blkA : Block := ⟨hdrA, []⟩

/-- A one-block chain whose tail is `blkA`. -/
def chainA : Blockchain := ⟨[blkA]⟩

/-- A block whose `prev_hash` is the double-SHA256 of the tail block's
*header* (the linkage the claim describes). -/
def blkHeaderLinked : Block := ⟨⟨1, 0, 0x207fffff, 0, hdrA.double_sha256, zeros32⟩, []⟩

/-- A block with correct linkage (double-SHA256 of the tail *block*) and
Merkle root, but difficulty `0x01000000`, whose decoded target is zero, so
its proof of work cannot hold. -/
def blkPoWFail : Block := ⟨⟨1, 0, 0x01000000, 0, blkA.double_sha256, zeros32⟩, []⟩

/-- A header whose compact difficulty `0x21010000` decodes to `2 ^ 256`,
whose big-endian rendering needs 33 bytes. -/
def hdrOverflow : Header := ⟨1, 0, 0x21010000, 0, zeros32, zeros32⟩

/-- A ten-block chain whose tail difficulty makes `compact_to_target`
panic during retargeting. -/
def chainOverflow : Blockchain := ⟨List.replicate 10 ⟨hdrOverflow, []⟩⟩

/-- A block at timestamp `t` with easy difficulty. -/
def blkT (t : Nat) : Block := ⟨⟨1, t, 0x207fffff, 0, zeros32, zeros32⟩, []⟩

/-- A ten-block chain spanning 1000 seconds, due for retargeting. -/
def chainRetarget : Blockchain := ⟨List.replicate 9 (blkT 0) ++ [blkT 1000]⟩

/-- A header that mines at nonce 2: nonces 0 and 1 fail its target. -/
def hdrMine : Header := ⟨1, 0, 0x207fffff, 0, zeros32, 3 :: List.replicate 31 0⟩

/-! ## Byte-string arithmetic lemmas -/

theorem leBytesAux_zero (fuel : Nat) : leBytesAux fuel 0 = [] := by
  cases fuel <;> simp [leBytesAux]

theorem leBytesAux_congr (n : Nat) :
    ∀ f1 f2, n ≤ f1 → n ≤ f2 → leBytesAux f1 n = leBytesAux f2 n := by
  induction n using Nat.strong_induction_on with
  | _ n ih =>
    intro f1 f2 h1 h2
    rcases Nat.eq_zero_or_pos n with hn | hn
    · subst hn; rw [leBytesAux_zero, leBytesAux_zero]
    · obtain ⟨f1', rfl⟩ : ∃ k, f1 = k + 1 := ⟨f1 - 1, by omega⟩
      obtain ⟨f2', rfl⟩ : ∃ k, f2 = k + 1 := ⟨f2 - 1, by omega⟩
      have hlt : n / 256 < n := Nat.div_lt_self hn (by norm_num)
      simp only [leBytesAux, if_neg hn.ne']
      rw [ih (n / 256) hlt f1' (n / 256) (by omega) le_rfl,
          ih (n / 256) hlt f2' (n / 256) (by omega) le_rfl]

theorem leBytes_def (n : Nat) (hn : n ≠ 0) :
    leBytes n = n % 256 :: leBytes (n / 256) := by
  obtain ⟨m, rfl⟩ : ∃ k, n = k + 1 := ⟨n - 1, by omega⟩
  show leBytesAux (m + 1) (m + 1) = _
  simp only [leBytesAux, if_neg hn]
  rw [leBytesAux_congr ((m + 1) / 256) m ((m + 1) / 256)
        (by omega) le_rfl]
  rfl

theorem leBytes_zero : leBytes 0 = [] := rfl

theorem leNat_leBytes (n : Nat) : leNat (leBytes n) = n := by
  induction n using Nat.strong_induction_on with
  | _ n ih =>
    rcases Nat.eq_zero_or_pos n with hn | hn
    · subst hn; rfl
    · rw [leBytes_def n hn.ne', leNat,
          ih (n / 256) (Nat.div_lt_self hn (by norm_num))]
      omega

theorem leBytes_bytesOk (n : Nat) : bytesOk (leBytes n) := by
  induction n using Nat.strong_induction_on with
  | _ n ih =>
    rcases Nat.eq_zero_or_pos n with hn | hn
    · subst hn; intro b hb; simp [leBytes_zero] at hb
    · rw [leBytes_def n hn.ne']
      intro b hb
      rcases List.mem_cons.mp hb with rfl | hb
      · exact Nat.mod_lt _ (by norm_num)
      · exact ih (n / 256) (Nat.div_lt_self hn (by norm_num)) b hb

theorem leBytes_length_le (k : Nat) :
    ∀ n, n < 256 ^ k → (leBytes n).length ≤ k := by
  induction k with
  | zero =>
    intro n h
    interval_cases n
    simp [leBytes_zero]
  | succ k ih =>
    intro n h
    rcases Nat.eq_zero_or_pos n with hn | hn
    · subst hn; simp [leBytes_zero]
    · rw [leBytes_def n hn.ne']
      have : n / 256 < 256 ^ k := by
        rw [Nat.div_lt_iff_lt_mul (by norm_num : 0 < 256)]
        calc n < 256 ^ (k + 1) := h
          _ = 256 ^ k * 256 := by ring
      simpa using ih (n / 256) this

theorem leBytes_length_gt (k : Nat) :
    ∀ n, 256 ^ k ≤ n → k < (leBytes n).length := by
  induction k with
  | zero =>
    intro n h
    rw [leBytes_def n (by omega)]
    simp
  | succ k ih =>
    intro n h
    have hn : n ≠ 0 := by
      have : 0 < 256 ^ (k + 1) := Nat.pos_pow_of_pos _ (by norm_num)
      omega
    rw [leBytes_def n hn]
    have : 256 ^ k ≤ n / 256 := by
      rw [Nat.le_div_iff_mul_le (by norm_num : 0 < 256)]
      calc 256 ^ k * 256 = 256 ^ (k + 1) := by ring
        _ ≤ n := h
    simpa using ih (n / 256) this

/-- Unfolding `beNat` of a byte string with an accumulator. -/
theorem beNat_foldl (l : List Nat) :
    ∀ acc, l.foldl (fun acc b => acc * 256 + b) acc =
      acc * 256 ^ l.length + beNat l := by
  induction l with
  | nil => intro acc; simp [beNat]
  | cons b l ih =>
    intro acc
    show l.foldl _ (acc * 256 + b) = _
    rw [ih (acc * 256 + b)]
    have : beNat (b :: l) = (0 * 256 + b) * 256 ^ l.length + beNat l := by
      show l.foldl _ (0 * 256 + b) = _
      rw [ih (0 * 256 + b)]
    rw [this]
    ring_nf
    rw [List.length_cons]
    ring

theorem beNat_append (l1 l2 : List Nat) :
    beNat (l1 ++ l2) = beNat l1 * 256 ^ l2.length + beNat l2 := by
  show (l1 ++ l2).foldl _ 0 = _
  rw [List.foldl_append, beNat_foldl]
  rfl

theorem beNat_reverse (l : List Nat) : beNat l.reverse = leNat l := by
  induction l with
  | nil => rfl
  | cons b l ih =>
    rw [List.reverse_cons, beNat_append, ih, leNat]
    simp [beNat]
    ring

theorem beNat_beBytes (n : Nat) : beNat (beBytes n) = n := by
  by_cases hn : n = 0
  · subst hn; rfl
  · unfold beBytes
    rw [if_neg hn, beNat_reverse, leNat_leBytes]

theorem beNat_replicate_zero (k : Nat) : beNat (List.replicate k 0) = 0 := by
  induction k with
  | zero => rfl
  | succ k ih =>
    rw [List.replicate_succ' k 0, beNat_append, ih]
    rfl

theorem beNat_pad (k : Nat) (l : List Nat) :
    beNat (List.replicate k 0 ++ l) = beNat l := by
  rw [beNat_append, beNat_replicate_zero, Nat.zero_mul, Nat.zero_add]

/-! ## Shift and or bridges -/

theorem shl_lor_eq_add (a b k : Nat) (hb : b < 2 ^ k) :
    (a <<< k) ||| b = a * 2 ^ k + b := by
  rw [Nat.shiftLeft_eq, Nat.mul_comm a (2 ^ k), ← Nat.mul_add_lt_is_or hb a,
    Nat.mul_comm (2 ^ k) a]

theorem lor_eq_add (a b k : Nat) (ha : 2 ^ k ∣ a) (hb : b < 2 ^ k) :
    a ||| b = a + b := by
  obtain ⟨c, rfl⟩ := ha
  rw [← Nat.mul_add_lt_is_or hb c]

theorem land_mod (n k : Nat) : n &&& (2 ^ k - 1) = n % 2 ^ k :=
  Nat.and_pow_two_sub_one_eq_mod n k

theorem shiftRight_div (a k : Nat) : a >>> k = a / 2 ^ k :=
  Nat.shiftRight_eq_div_pow a k

/-! ## Fixed-width bytes -/

theorem leBytesF_length (k : Nat) : ∀ n, (leBytesF k n).length = k := by
  induction k with
  | zero => intro n; rfl
  | succ k ih => intro n; simp [leBytesF, ih]

theorem leNat_leBytesF (k : Nat) :
    ∀ n, n < 256 ^ k → leNat (leBytesF k n) = n := by
  induction k with
  | zero =>
    intro n h
    interval_cases n
    rfl
  | succ k ih =>
    intro n h
    have : n / 256 < 256 ^ k := by
      rw [Nat.div_lt_iff_lt_mul (by norm_num : 0 < 256)]
      calc n < 256 ^ (k + 1) := h
        _ = 256 ^ k * 256 := by ring
    simp only [leBytesF, leNat, ih (n / 256) this]
    omega

theorem leBytesF_bytesOk (k : Nat) : ∀ n, bytesOk (leBytesF k n) := by
  induction k with
  | zero => intro n b hb; simp [leBytesF] at hb
  | succ k ih =>
    intro n b hb
    rcases List.mem_cons.mp hb with rfl | hb
    · exact Nat.mod_lt _ (by norm_num)
    · exact ih (n / 256) b hb

/-- Digits of a value shifted left by whole bytes. -/
theorem leBytes_mul_256_pow (k : Nat) :
    ∀ m, m ≠ 0 → leBytes (m * 256 ^ k) = List.replicate k 0 ++ leBytes m := by
  induction k with
  | zero => intro m _; simp
  | succ k ih =>
    intro m hm
    have hne : m * 256 ^ (k + 1) ≠ 0 := by positivity
    rw [leBytes_def _ hne]
    have h1 : m * 256 ^ (k + 1) % 256 = 0 := by
      have : m * 256 ^ (k + 1) = m * 256 ^ k * 256 := by ring
      rw [this]
      exact Nat.mul_mod_left _ _
    have h2 : m * 256 ^ (k + 1) / 256 = m * 256 ^ k := by
      have : m * 256 ^ (k + 1) = m * 256 ^ k * 256 := by ring
      rw [this]
      exact Nat.mul_div_cancel _ (by norm_num)
    rw [h1, h2, ih m hm, List.replicate_succ]
    rfl

/-- The shift-or accumulator loop of `target_to_compact` computes the
big-endian value of the byte string. -/
theorem foldl_shl_or (l : List Nat) (hok : bytesOk l) :
    l.foldl (fun acc b => (acc <<< 8) ||| b) 0 = beNat l := by
  have step : ∀ (l' : List Nat), bytesOk l' → ∀ acc,
      l'.foldl (fun acc b => (acc <<< 8) ||| b) acc =
        l'.foldl (fun acc b => acc * 256 + b) acc := by
    intro l'
    induction l' with
    | nil => intro _ acc; rfl
    | cons b t ih =>
      intro hok' acc
      have hb : b < 256 := hok' b (List.mem_cons_self _ _)
      show List.foldl _ ((acc <<< 8) ||| b) t = _
      rw [shl_lor_eq_add acc b 8 (by omega)]
      exact ih (fun x hx => hok' x (List.mem_cons_of_mem _ hx)) _
  exact step l hok 0

/-! ## Decoder round-trip and extension lemmas -/

theorem dBytes_encode (l : List Nat) :
    ∀ rest, dBytes l.length (l ++ rest) = some (l, rest) := by
  induction l with
  | nil => intro rest; rfl
  | cons b t ih =>
    intro rest
    show (dBytes t.length (t ++ rest)).map _ = _
    rw [ih rest]
    rfl

theorem dBytes_ext (k : Nat) :
    ∀ bs v r (t : List Nat), dBytes k bs = some (v, r) →
      dBytes k (bs ++ t) = some (v, r ++ t) := by
  induction k with
  | zero =>
    intro bs v r t h
    simp only [dBytes, Option.some.injEq, Prod.mk.injEq] at h ⊢
    exact ⟨h.1, by rw [h.2]⟩
  | succ k ih =>
    intro bs v r t h
    cases bs with
    | nil => simp [dBytes] at h
    | cons b bs' =>
      simp only [dBytes, Option.map_eq_some'] at h
      obtain ⟨⟨v', r'⟩, hd, heq⟩ := h
      simp only [Prod.mk.injEq] at heq
      show (dBytes k (bs' ++ t)).map _ = _
      rw [ih bs' v' r' t hd]
      simp [← heq.1, heq.2]

theorem dVarint_encode (n : Nat) (hn : n < 2 ^ 64) :
    ∀ rest, dVarint (vEnc n ++ rest) = some (n, rest) := by
  intro rest
  have enc : ∀ k, n < 256 ^ k →
      dBytes (leBytesF k n).length (leBytesF k n ++ rest) =
        some (leBytesF k n, rest) := fun k _ => dBytes_encode _ rest
  by_cases h1 : n < 251
  · simp [vEnc, dVarint, h1]
  · by_cases h2 : n < 2 ^ 16
    · have hb : n < 256 ^ 2 := by norm_num at h2 ⊢; omega
      have hd := enc 2 hb
      rw [leBytesF_length] at hd
      simp only [vEnc, if_neg h1, if_pos h2, List.cons_append, dVarint]
      norm_num [hd, leNat_leBytesF 2 n hb]
    · by_cases h3 : n < 2 ^ 32
      · have hb : n < 256 ^ 4 := by norm_num at h3 ⊢; omega
        have hd := enc 4 hb
        rw [leBytesF_length] at hd
        simp only [vEnc, if_neg h1, if_neg h2, if_pos h3, List.cons_append,
          dVarint]
        norm_num [hd, leNat_leBytesF 4 n hb]
      · have hb : n < 256 ^ 8 := by norm_num at hn ⊢; omega
        have hd := enc 8 hb
        rw [leBytesF_length] at hd
        simp only [vEnc, if_neg h1, if_neg h2, if_neg h3, List.cons_append,
          dVarint]
        norm_num [hd, leNat_leBytesF 8 n hb]

theorem dVarint_ext (bs : List Nat) (v : Nat) (r t : List Nat)
    (h : dVarint bs = some (v, r)) : dVarint (bs ++ t) = some (v, r ++ t) := by
  cases bs with
  | nil => simp [dVarint] at h
  | cons b bs' =>
    have hfix : ∀ k (w : List Nat → Option (List Nat × List Nat)),
        w = dBytes k →
        (w bs').map (fun p => (leNat p.1, p.2)) = some (v, r) →
        (w (bs' ++ t)).map (fun p => (leNat p.1, p.2)) = some (v, r ++ t) := by
      intro k w hw hmap
      subst hw
      simp only [Option.map_eq_some'] at hmap
      obtain ⟨⟨v', r'⟩, hd, heq⟩ := hmap
      simp only [Prod.mk.injEq] at heq
      rw [dBytes_ext k bs' v' r' t hd]
      simp [← heq.1, heq.2]
    simp only [dVarint, List.cons_append] at h ⊢
    by_cases h1 : b < 251
    · simp [h1] at h ⊢; exact ⟨h.1, by rw [← h.2]⟩
    · rw [if_neg h1] at h ⊢
      by_cases h2 : b = 251
      · rw [if_pos h2] at h ⊢; exact hfix 2 _ rfl h
      · rw [if_neg h2] at h ⊢
        by_cases h3 : b = 252
        · rw [if_pos h3] at h ⊢; exact hfix 4 _ rfl h
        · rw [if_neg h3] at h ⊢
          by_cases h4 : b = 253
          · rw [if_pos h4] at h ⊢; exact hfix 8 _ rfl h
          · rw [if_neg h4] at h
            exact absurd h (by simp)

theorem dByteVec_encode (l : List Nat) (hl : l.length < 2 ^ 64) :
    ∀ rest, dByteVec (encBytes l ++ rest) = some (l, rest) := by
  intro rest
  unfold dByteVec encBytes
  rw [List.append_assoc, dVarint_encode l.length hl]
  exact dBytes_encode l rest

theorem dByteVec_ext (bs : List Nat) (v : List Nat) (r t : List Nat)
    (h : dByteVec bs = some (v, r)) : dByteVec (bs ++ t) = some (v, r ++ t) := by
  unfold dByteVec at h ⊢
  cases hv : dVarint bs with
  | none => rw [hv] at h; exact absurd h (by simp)
  | some p =>
    obtain ⟨n, rest⟩ := p
    rw [hv] at h
    rw [dVarint_ext bs n rest t hv]
    exact dBytes_ext n rest v r t h

theorem dList_encode {α : Type} (d : List Nat → Option (α × List Nat))
    (enc : α → List Nat) (l : List α)
    (hel : ∀ a ∈ l, ∀ rest, d (enc a ++ rest) = some (a, rest)) :
    ∀ rest, dList d l.length ((l.map enc).flatten ++ rest) = some (l, rest) := by
  induction l with
  | nil => intro rest; rfl
  | cons a l ih =>
    intro rest
    show dList d (l.length + 1) _ = _
    simp only [List.map_cons, List.flatten_cons, List.append_assoc]
    unfold dList
    rw [hel a (List.mem_cons_self _ _) _]
    show (match dList d l.length ((l.map enc).flatten ++ rest) with
      | none => none
      | some (as, rest') => some (a :: as, rest')) = _
    rw [ih (fun x hx => hel x (List.mem_cons_of_mem _ hx)) rest]

theorem dList_ext {α : Type} (d : List Nat → Option (α × List Nat))
    (dext : ∀ bs v r t, d bs = some (v, r) → d (bs ++ t) = some (v, r ++ t))
    (n : Nat) :
    ∀ bs v r t, dList d n bs = some (v, r) →
      dList d n (bs ++ t) = some (v, r ++ t) := by
  induction n with
  | zero =>
    intro bs v r t h
    simp only [dList, Option.some.injEq, Prod.mk.injEq] at h ⊢
    exact ⟨h.1, by rw [h.2]⟩
  | succ n ih =>
    intro bs v r t h
    unfold dList at h ⊢
    cases hd : d bs with
    | none => rw [hd] at h; exact absurd h (by simp)
    | some p =>
      obtain ⟨a, rest⟩ := p
      rw [hd] at h
      rw [dext bs a rest t hd]
      replace h : (match dList d n rest with
        | none => none
        | some (l, rest') => some (a :: l, rest')) = some (v, r) := h
      show (match dList d n (rest ++ t) with
        | none => none
        | some (l, rest') => some (a :: l, rest')) = some (v, r ++ t)
      cases hl : dList d n rest with
      | none => rw [hl] at h; exact absurd h (by simp)
      | some q =>
        obtain ⟨as, rest'⟩ := q
        rw [hl] at h
        rw [ih rest as rest' t hl]
        simp only [Option.some.injEq, Prod.mk.injEq] at h ⊢
        exact ⟨h.1, by rw [h.2]⟩

theorem dSeq_encode {α : Type} (d : List Nat → Option (α × List Nat))
    (enc : α → List Nat) (l : List α) (hn : l.length < 2 ^ 64)
    (hel : ∀ a ∈ l, ∀ rest, d (enc a ++ rest) = some (a, rest)) :
    ∀ rest, dSeq d (vEnc l.length ++ (l.map enc).flatten ++ rest) =
      some (l, rest) := by
  intro rest
  unfold dSeq
  rw [List.append_assoc, dVarint_encode l.length hn]
  exact dList_encode d enc l hel rest

theorem dSeq_ext {α : Type} (d : List Nat → Option (α × List Nat))
    (dext : ∀ bs v r t, d bs = some (v, r) → d (bs ++ t) = some (v, r ++ t)) :
    ∀ bs v r t, dSeq d bs = some (v, r) → dSeq d (bs ++ t) = some (v, r ++ t) := by
  intro bs v r t h
  unfold dSeq at h ⊢
  cases hv : dVarint bs with
  | none => rw [hv] at h; exact absurd h (by simp)
  | some p =>
    obtain ⟨n, rest⟩ := p
    rw [hv] at h
    rw [dVarint_ext bs n rest t hv]
    exact dList_ext d dext n rest v r t h

theorem dHeader_encode (h : Header) (hwf : h.wf) :
    ∀ rest, dHeader (h.serialize ++ rest) = some (h, rest) := by
  intro rest
  obtain ⟨hv, ht, hd, hn, hp, _, hm, _⟩ := hwf
  obtain ⟨version, time, dc, nonce, prev, mr⟩ := h
  simp only [Header.serialize] at *
  unfold dHeader
  simp only [List.append_assoc]
  rw [dVarint_encode version (by norm_num at hv ⊢; omega) _]
  simp only [Option.some_bind]
  rw [dVarint_encode time (by norm_num at ht ⊢; omega) _]
  simp only [Option.some_bind]
  rw [dVarint_encode dc (by norm_num at hd ⊢; omega) _]
  simp only [Option.some_bind]
  rw [dVarint_encode nonce hn _]
  simp only [Option.some_bind]
  have h32p := dBytes_encode prev (mr ++ rest)
  rw [hp] at h32p
  rw [h32p]
  simp only [Option.some_bind]
  have h32m := dBytes_encode mr rest
  rw [hm] at h32m
  rw [h32m]
  simp only [Option.some_bind]

theorem dHeader_ext (bs : List Nat) (v : Header) (r t : List Nat)
    (h : dHeader bs = some (v, r)) : dHeader (bs ++ t) = some (v, r ++ t) := by
  unfold dHeader at h ⊢
  cases h1 : dVarint bs with
  | none => rw [h1] at h; exact absurd h (by simp)
  | some p1 =>
    obtain ⟨version, bs1⟩ := p1
    rw [h1] at h
    rw [dVarint_ext bs version bs1 t h1]
    simp only [Option.some_bind] at h ⊢
    cases h2 : dVarint bs1 with
    | none => rw [h2] at h; exact absurd h (by simp)
    | some p2 =>
      obtain ⟨time, bs2⟩ := p2
      rw [h2] at h
      rw [dVarint_ext bs1 time bs2 t h2]
      simp only [Option.some_bind] at h ⊢
      cases h3 : dVarint bs2 with
      | none => rw [h3] at h; exact absurd h (by simp)
      | some p3 =>
        obtain ⟨dc, bs3⟩ := p3
        rw [h3] at h
        rw [dVarint_ext bs2 dc bs3 t h3]
        simp only [Option.some_bind] at h ⊢
        cases h4 : dVarint bs3 with
        | none => rw [h4] at h; exact absurd h (by simp)
        | some p4 =>
          obtain ⟨nonce, bs4⟩ := p4
          rw [h4] at h
          rw [dVarint_ext bs3 nonce bs4 t h4]
          simp only [Option.some_bind] at h ⊢
          cases h5 : dBytes 32 bs4 with
          | none => rw [h5] at h; exact absurd h (by simp)
          | some p5 =>
            obtain ⟨prev, bs5⟩ := p5
            rw [h5] at h
            rw [dBytes_ext 32 bs4 prev bs5 t h5]
            simp only [Option.some_bind] at h ⊢
            cases h6 : dBytes 32 bs5 with
            | none => rw [h6] at h; exact absurd h (by simp)
            | some p6 =>
              obtain ⟨mr, bs6⟩ := p6
              rw [h6] at h
              rw [dBytes_ext 32 bs5 mr bs6 t h6]
              simp only [Option.some_bind, Option.some.injEq,
                Prod.mk.injEq] at h ⊢
              exact ⟨h.1, by rw [h.2]⟩

theorem dTransaction_encode (tx : Transaction) (hwf : tx.wf) :
    ∀ rest, dTransaction (tx.serialize ++ rest) = some (tx, rest) := by
  intro rest
  obtain ⟨hi, ho, hins, houts⟩ := hwf
  obtain ⟨ins, outs⟩ := tx
  simp only [Transaction.serialize] at *
  unfold dTransaction
  simp only [List.append_assoc]
  rw [show vEnc ins.length ++ ((ins.map encBytes).flatten ++
        (vEnc outs.length ++ ((outs.map encBytes).flatten ++ rest))) =
      vEnc ins.length ++ (ins.map encBytes).flatten ++
        (vEnc outs.length ++ (outs.map encBytes).flatten ++ rest) by
    simp [List.append_assoc]]
  rw [dSeq_encode dByteVec encBytes ins hi
    (fun a ha r => dByteVec_encode a (hins a ha).1 r)]
  simp only [Option.some_bind]
  rw [dSeq_encode dByteVec encBytes outs ho
    (fun a ha r => dByteVec_encode a (houts a ha).1 r)]
  simp only [Option.some_bind]

theorem dTransaction_ext (bs : List Nat) (v : Transaction) (r t : List Nat)
    (h : dTransaction bs = some (v, r)) :
    dTransaction (bs ++ t) = some (v, r ++ t) := by
  unfold dTransaction at h ⊢
  cases h1 : dSeq dByteVec bs with
  | none => rw [h1] at h; exact absurd h (by simp)
  | some p1 =>
    obtain ⟨ins, bs1⟩ := p1
    rw [h1] at h
    rw [dSeq_ext dByteVec dByteVec_ext bs ins bs1 t h1]
    simp only [Option.some_bind] at h ⊢
    cases h2 : dSeq dByteVec bs1 with
    | none => rw [h2] at h; exact absurd h (by simp)
    | some p2 =>
      obtain ⟨outs, bs2⟩ := p2
      rw [h2] at h
      rw [dSeq_ext dByteVec dByteVec_ext bs1 outs bs2 t h2]
      simp only [Option.some_bind, Option.some.injEq, Prod.mk.injEq] at h ⊢
      exact ⟨h.1, by rw [h.2]⟩

theorem dBlock_encode (b : Block) (hwf : b.wf) :
    ∀ rest, dBlock (b.serialize ++ rest) = some (b, rest) := by
  intro rest
  obtain ⟨hh, hn, htxs⟩ := hwf
  obtain ⟨h, txs⟩ := b
  simp only [Block.serialize] at *
  unfold dBlock
  simp only [List.append_assoc]
  rw [dHeader_encode h hh]
  simp only [Option.some_bind]
  rw [show vEnc txs.length ++ ((txs.map Transaction.serialize).flatten ++ rest) =
      vEnc txs.length ++ (txs.map Transaction.serialize).flatten ++ rest by
    simp [List.append_assoc]]
  rw [dSeq_encode dTransaction Transaction.serialize txs hn
    (fun a ha r => dTransaction_encode a (htxs a ha) r)]
  simp only [Option.some_bind]

theorem dBlock_ext (bs : List Nat) (v : Block) (r t : List Nat)
    (h : dBlock bs = some (v, r)) : dBlock (bs ++ t) = some (v, r ++ t) := by
  unfold dBlock at h ⊢
  cases h1 : dHeader bs with
  | none => rw [h1] at h; exact absurd h (by simp)
  | some p1 =>
    obtain ⟨hd, bs1⟩ := p1
    rw [h1] at h
    rw [dHeader_ext bs hd bs1 t h1]
    simp only [Option.some_bind] at h ⊢
    cases h2 : dSeq dTransaction bs1 with
    | none => rw [h2] at h; exact absurd h (by simp)
    | some p2 =>
      obtain ⟨txs, bs2⟩ := p2
      rw [h2] at h
      rw [dSeq_ext dTransaction dTransaction_ext bs1 txs bs2 t h2]
      simp only [Option.some_bind, Option.some.injEq, Prod.mk.injEq] at h ⊢
      exact ⟨h.1, by rw [h.2]⟩

theorem dBlockchain_encode (c : Blockchain) (hwf : c.wf) :
    ∀ rest, dBlockchain (c.serialize ++ rest) = some (c, rest) := by
  intro rest
  obtain ⟨hn, hbs⟩ := hwf
  obtain ⟨blocks⟩ := c
  simp only [Blockchain.serialize] at *
  unfold dBlockchain
  rw [List.append_assoc]
  rw [show vEnc blocks.length ++ ((blocks.map Block.serialize).flatten ++ rest) =
      vEnc blocks.length ++ (blocks.map Block.serialize).flatten ++ rest by
    simp [List.append_assoc]]
  rw [dSeq_encode dBlock Block.serialize blocks hn
    (fun a ha r => dBlock_encode a (hbs a ha) r)]
  simp only [Option.some_bind]

theorem dBlockchain_ext (bs : List Nat) (v : Blockchain) (r t : List Nat)
    (h : dBlockchain bs = some (v, r)) :
    dBlockchain (bs ++ t) = some (v, r ++ t) := by
  unfold dBlockchain at h ⊢
  cases h1 : dSeq dBlock bs with
  | none => rw [h1] at h; exact absurd h (by simp)
  | some p1 =>
    obtain ⟨blocks, bs1⟩ := p1
    rw [h1] at h
    rw [dSeq_ext dBlock dBlock_ext bs blocks bs1 t h1]
    simp only [Option.some_bind, Option.some.injEq, Prod.mk.injEq] at h ⊢
    exact ⟨h.1, by rw [h.2]⟩

/-- Truncation rejection, generically: if a decoder satisfies the round-trip
and extension laws, it fails on every strict prefix of an encoding. -/
theorem decode_trunc_none {α : Type} (dec : List Nat → Option (α × List Nat))
    (x : α) (enc : List Nat)
    (hrt : ∀ rest, dec (enc ++ rest) = some (x, rest))
    (hext : ∀ bs v r t, dec bs = some (v, r) → dec (bs ++ t) = some (v, r ++ t))
    (p s : List Nat) (hps : p ++ s = enc) (hs : s ≠ []) : dec p = none := by
  cases hdec : dec p with
  | none => rfl
  | some vr =>
    obtain ⟨v, r⟩ := vr
    have h2 := hext p v r s hdec
    rw [hps] at h2
    have h3 := hrt []
    rw [List.append_nil] at h3
    rw [h3] at h2
    simp only [Option.some.injEq, Prod.mk.injEq] at h2
    have : r ++ s = [] := h2.2.symm
    rcases List.append_eq_nil.mp this with ⟨-, hs'⟩
    exact absurd hs' hs

/-! ## Compact-difficulty codec lemmas -/

theorem bytesOk_beBytes (n : Nat) : bytesOk (beBytes n) := by
  unfold beBytes
  split
  · intro b hb; simp at hb; omega
  · intro b hb
    rw [List.mem_reverse] at hb
    exact leBytes_bytesOk n b hb

theorem pow_256_eq (k : Nat) : (256 : Nat) ^ k = 2 ^ (8 * k) := by
  rw [show (256 : Nat) = 2 ^ 8 by norm_num, ← pow_mul]

theorem beBytes_length_le_iff (k n : Nat) (hk : 1 ≤ k) :
    (beBytes n).length ≤ k ↔ n < 256 ^ k := by
  unfold beBytes
  split
  · subst n
    simp only [List.length_cons, List.length_nil]
    constructor
    · intro _; positivity
    · intro _; omega
  · rw [List.length_reverse]
    constructor
    · intro h
      by_contra hn
      push_neg at hn
      have := leBytes_length_gt k n hn
      omega
    · intro h
      exact leBytes_length_le k n h

/-- Zeta-expanded evaluation of `target_to_compact`, with the intermediate
mantissa named. -/
theorem target_to_compact_eq (t man0 : Nat)
    (hman : (if (beBytes t).length ≤ 3 then
        ((beBytes t).foldl (fun acc b => (acc <<< 8) ||| b) 0) <<<
          (8 * (3 - (beBytes t).length))
      else ((beBytes t).getD 0 0 <<< 16) ||| ((beBytes t).getD 1 0 <<< 8) |||
        (beBytes t).getD 2 0) = man0) :
    target_to_compact t =
      (((if man0 &&& 0x00800000 ≠ 0 then (beBytes t).length + 1
         else (beBytes t).length) <<< 24) % 2 ^ 32) |||
        ((if man0 &&& 0x00800000 ≠ 0 then man0 >>> 8 else man0) &&& 0x007fffff) := by
  subst hman
  rfl

/-- The value of a decoded compact target, via the padded byte rendering. -/
theorem compact_to_target_val (c : Nat) (tb : List Nat)
    (h : compact_to_target c = some tb) :
    tb.length = 32 ∧ beNat tb = compactVal c := by
  simp only [compact_to_target] at h
  split at h
  · rename_i hle
    simp only [Option.some.injEq] at h
    subst h
    constructor
    · simp only [List.length_append, List.length_replicate]
      omega
    · rw [beNat_pad, beNat_beBytes]
  · exact absurd h (by simp)

theorem compact_to_target_isSome (c : Nat) :
    (compact_to_target c).isSome ↔ compactVal c < 2 ^ 256 := by
  simp only [compact_to_target]
  rw [show (2 : Nat) ^ 256 = 256 ^ 32 by rw [pow_256_eq]]
  constructor
  · intro h
    split at h
    · rename_i hle
      exact (beBytes_length_le_iff 32 _ (by norm_num)).mp hle
    · simp at h
  · intro h
    rw [if_pos ((beBytes_length_le_iff 32 _ (by norm_num)).mpr h)]
    rfl

theorem compactVal_shift (c : Nat) (he : 3 ≤ c >>> 24) :
    compactVal c = (c &&& 0x7fffff) * 256 ^ (c >>> 24 - 3) := by
  unfold compactVal
  rcases Nat.lt_or_ge 3 (c >>> 24) with h | h
  · rw [if_pos h, Nat.shiftLeft_eq, pow_256_eq]
  · have : c >>> 24 = 3 := by omega
    rw [this]
    norm_num

theorem mask23_lt (c : Nat) : c &&& 0x7fffff < 2 ^ 23 := by
  rw [show (0x7fffff : Nat) = 2 ^ 23 - 1 by norm_num, land_mod]
  exact Nat.mod_lt _ (by positivity)

theorem leBytes_of_two (m : Nat) (hlo : 256 ≤ m) (hhi : m < 65536) :
    leBytes m = [m % 256, m / 256] := by
  rw [leBytes_def m (by omega)]
  rw [leBytes_def (m / 256) (by omega)]
  rw [Nat.mod_eq_of_lt (by omega : m / 256 < 256)]
  rw [show m / 256 / 256 = 0 by omega, leBytes_zero]

theorem leBytes_of_three (m : Nat) (hlo : 65536 ≤ m) (hhi : m < 16777216) :
    leBytes m = [m % 256, m / 256 % 256, m / 65536] := by
  rw [leBytes_def m (by omega)]
  rw [leBytes_def (m / 256) (by omega)]
  rw [leBytes_def (m / 256 / 256) (by omega)]
  rw [show m / 256 / 256 = m / 65536 by omega]
  rw [Nat.mod_eq_of_lt (by omega : m / 65536 < 256)]
  rw [show m / 65536 / 256 = 0 by omega, leBytes_zero]

/-- Bit 23 test of a value below `2 ^ 24`. -/
theorem land_bit23 (x : Nat) (hx : x < 2 ^ 24) :
    x &&& 0x800000 = if 2 ^ 23 ≤ x then 2 ^ 23 else 0 := by
  rw [show (0x800000 : Nat) = 2 ^ 23 by norm_num, Nat.and_two_pow]
  rcases Nat.lt_or_ge x (2 ^ 23) with h | h
  · rw [if_neg (by omega)]
    have : x.testBit 23 = false := by
      rw [Nat.testBit_to_div_mod]
      simp only [decide_eq_false_iff_not]
      rw [show x / 2 ^ 23 = 0 by omega]
      omega
    rw [this]
    rfl
  · rw [if_pos h]
    have : x.testBit 23 = true := by
      rw [Nat.testBit_to_div_mod]
      simp only [decide_eq_true_eq]
      rw [show x / 2 ^ 23 = 1 by omega]
    rw [this]
    simp

/-- Round-trip of `target_to_compact` on a normalized shifted mantissa. -/
theorem target_to_compact_shifted (m k : Nat) (hm_lo : 2 ^ 15 ≤ m)
    (hm_hi : m < 2 ^ 23) (hk : k ≤ 29) :
    target_to_compact (m * 256 ^ k) = (k + 3) * 2 ^ 24 + m := by
  have hm0 : m ≠ 0 := by positivity
  have hne : m * 256 ^ k ≠ 0 := by positivity
  have hBdef : beBytes (m * 256 ^ k) =
      (leBytes m).reverse ++ List.replicate k 0 := by
    unfold beBytes
    rw [if_neg hne, leBytes_mul_256_pow k m hm0, List.reverse_append,
      List.reverse_replicate]
  have hval : beNat (beBytes (m * 256 ^ k)) = m * 256 ^ k := beNat_beBytes _
  have hok : bytesOk (beBytes (m * 256 ^ k)) := bytesOk_beBytes _
  have hfold : (beBytes (m * 256 ^ k)).foldl (fun acc b => (acc <<< 8) ||| b) 0 =
      m * 256 ^ k := by rw [foldl_shl_or _ hok, hval]
  -- the final assembly, shared by both significant-byte cases
  have htail : ∀ size2, size2 = k + 3 →
      ((size2 <<< 24) % 2 ^ 32) ||| (m &&& 0x7fffff) = (k + 3) * 2 ^ 24 + m := by
    intro size2 hsz
    subst hsz
    rw [show m &&& 0x7fffff = m by
      rw [show (0x7fffff : Nat) = 2 ^ 23 - 1 by norm_num, land_mod]
      exact Nat.mod_eq_of_lt hm_hi]
    rw [show ((k + 3) <<< 24) % 2 ^ 32 = (k + 3) <<< 24 by
      apply Nat.mod_eq_of_lt
      rw [Nat.shiftLeft_eq]
      calc (k + 3) * 2 ^ 24 ≤ 32 * 2 ^ 24 := by
            apply Nat.mul_le_mul_right; omega
        _ < 2 ^ 32 := by norm_num]
    exact shl_lor_eq_add (k + 3) m 24 (by omega)
  rcases Nat.lt_or_ge m 65536 with hs | hs
  -- two significant mantissa bytes; the top one has its high bit set,
  -- so the mantissa is renormalized and the size bumped
  · have hrev : (leBytes m).reverse = [m / 256, m % 256] := by
      rw [leBytes_of_two m (by omega) hs]; rfl
    have hB : beBytes (m * 256 ^ k) =
        m / 256 :: m % 256 :: List.replicate k 0 := by
      rw [hBdef, hrev]; rfl
    have hBlen : (beBytes (m * 256 ^ k)).length = k + 2 := by
      rw [hB]; simp
    have hman0 : (if (beBytes (m * 256 ^ k)).length ≤ 3 then
          ((beBytes (m * 256 ^ k)).foldl (fun acc b => (acc <<< 8) ||| b) 0) <<<
            (8 * (3 - (beBytes (m * 256 ^ k)).length))
        else ((beBytes (m * 256 ^ k)).getD 0 0 <<< 16) |||
          ((beBytes (m * 256 ^ k)).getD 1 0 <<< 8) |||
          (beBytes (m * 256 ^ k)).getD 2 0) = m * 256 := by
      rw [hBlen]
      rcases Nat.lt_or_ge k 2 with hk2 | hk2
      · rw [if_pos (by omega), hfold, Nat.shiftLeft_eq]
        rw [show (2 : Nat) ^ (8 * (3 - (k + 2))) = 256 ^ (1 - k) by
          rw [pow_256_eq]; congr 1; omega]
        rw [Nat.mul_assoc, ← pow_add, show k + (1 - k) = 1 by omega, pow_one]
      · rw [if_neg (by omega), hB]
        have harith : ∀ a b c : Nat, a = m / 256 → b = m % 256 → c = 0 →
            (a <<< 16) ||| (b <<< 8) ||| c = m * 256 := by
          intro a b c ha hb hc
          subst ha; subst hb; subst hc
          rw [Nat.or_zero]
          rw [shl_lor_eq_add (m / 256) ((m % 256) <<< 8) 16
            (by rw [Nat.shiftLeft_eq]; omega)]
          simp only [Nat.shiftLeft_eq]
          omega
        obtain ⟨k2, rfl⟩ : ∃ j, k = j + 2 := ⟨k - 2, by omega⟩
        apply harith
        · rfl
        · rfl
        · show (List.replicate (k2 + 2) (0 : Nat)).getD 0 0 = 0
          rw [List.replicate_succ]
          rfl
    rw [target_to_compact_eq (m * 256 ^ k) (m * 256) hman0, hBlen]
    rw [land_bit23 (m * 256) (by omega)]
    rw [if_pos (by omega : 2 ^ 23 ≤ m * 256)]
    rw [if_pos (by positivity : (2 : Nat) ^ 23 ≠ 0)]
    rw [if_pos (by positivity : (2 : Nat) ^ 23 ≠ 0)]
    rw [show (m * 256) >>> 8 = m by
      rw [shiftRight_div]
      omega]
    exact htail (k + 2 + 1) (by omega)
  -- three significant mantissa bytes; the high bit is clear, no renormalization
  · have hrev : (leBytes m).reverse = [m / 65536, m / 256 % 256, m % 256] := by
      rw [leBytes_of_three m (by omega) (by omega)]; rfl
    have hB : beBytes (m * 256 ^ k) =
        m / 65536 :: m / 256 % 256 :: m % 256 :: List.replicate k 0 := by
      rw [hBdef, hrev]; rfl
    have hBlen : (beBytes (m * 256 ^ k)).length = k + 3 := by
      rw [hB]; simp
    have hman0 : (if (beBytes (m * 256 ^ k)).length ≤ 3 then
          ((beBytes (m * 256 ^ k)).foldl (fun acc b => (acc <<< 8) ||| b) 0) <<<
            (8 * (3 - (beBytes (m * 256 ^ k)).length))
        else ((beBytes (m * 256 ^ k)).getD 0 0 <<< 16) |||
          ((beBytes (m * 256 ^ k)).getD 1 0 <<< 8) |||
          (beBytes (m * 256 ^ k)).getD 2 0) = m := by
      rw [hBlen]
      rcases Nat.eq_zero_or_pos k with rfl | hk1
      · rw [if_pos (by omega), hfold]
        norm_num
      · rw [if_neg (by omega), hB]
        have harith : ∀ a b c : Nat, a = m / 65536 → b = m / 256 % 256 →
            c = m % 256 → (a <<< 16) ||| (b <<< 8) ||| c = m := by
          intro a b c ha hb hc
          subst ha; subst hb; subst hc
          rw [shl_lor_eq_add (m / 65536) ((m / 256 % 256) <<< 8) 16
            (by rw [Nat.shiftLeft_eq]; omega)]
          simp only [Nat.shiftLeft_eq]
          rw [lor_eq_add _ (m % 256) 8
            ⟨m / 65536 * 2 ^ 8 + m / 256 % 256, by ring⟩ (by omega)]
          omega
        apply harith
        · rfl
        · rfl
        · rfl
    rw [target_to_compact_eq (m * 256 ^ k) m hman0, hBlen]
    rw [land_bit23 m (by omega)]
    rw [if_neg (by omega : ¬ 2 ^ 23 ≤ m)]
    rw [if_neg (by simp)]
    rw [if_neg (by simp)]
    exact htail (k + 3) rfl

/-! ## Mining-search lemmas -/

theorem findNonce_spec (h : Header) :
    ∀ fuel start n, start + fuel ≤ 2 ^ 64 →
      findNonce h start fuel = some n →
      start ≤ n ∧ validate_pow { h with nonce := n } = some true ∧
        ∀ j, start ≤ j → j < n →
          validate_pow { h with nonce := j } = some false := by
  intro fuel
  induction fuel with
  | zero =>
    intro start n _ hf
    simp [findNonce] at hf
  | succ fuel ih =>
    intro start n hb hf
    unfold findNonce at hf
    cases hv : validate_pow { h with nonce := start } with
    | none => rw [hv] at hf; exact absurd hf (by simp)
    | some ok =>
      rw [hv] at hf
      simp only [Option.some_bind] at hf
      cases ok with
      | true =>
        rw [if_pos rfl] at hf
        simp only [Option.some.injEq] at hf
        subst hf
        exact ⟨le_rfl, hv, fun j h1 h2 => absurd h1 (by omega)⟩
      | false =>
        rw [if_neg (by simp)] at hf
        rcases Nat.lt_or_ge (start + 1) (2 ^ 64) with hcase | hcase
        · rw [Nat.mod_eq_of_lt hcase] at hf
          obtain ⟨h1, h2, h3⟩ := ih (start + 1) n (by omega) hf
          refine ⟨by omega, h2, fun j hj1 hj2 => ?_⟩
          rcases Nat.eq_or_lt_of_le hj1 with rfl | hj1'
          · exact hv
          · exact h3 j (by omega) hj2
        · have hst : start + 1 = 2 ^ 64 := by omega
          have hfz : fuel = 0 := by omega
          subst hfz
          simp [findNonce] at hf

/-! ## Chain-validation lemmas -/

theorem validateFrom_chain (skip : Bool) :
    ∀ (bs : List Block) (p : Block),
      validateFrom skip (some p) bs = some true →
      List.Chain' (fun x y => y.header.prev_hash = x.double_sha256) (p :: bs) := by
  intro bs
  induction bs with
  | nil => intro p _; simp
  | cons b tl ih =>
    intro p hv
    unfold validateFrom at hv
    by_cases hprev : b.header.prev_hash = p.double_sha256
    · rw [if_neg (by simpa using hprev)] at hv
      have hcont : validateFrom skip (some b) tl = some true := by
        unfold validateBlockStep at hv
        split at hv
        · exact absurd hv (by simp)
        · split at hv
          · exact hv
          · cases hp : validate_pow b.header with
            | none => rw [hp] at hv; exact absurd hv (by simp)
            | some ok =>
              rw [hp] at hv
              simp only [Option.some_bind] at hv
              cases ok with
              | true => rwa [if_pos rfl] at hv
              | false =>
                rw [if_neg (by simp)] at hv
                exact absurd hv (by simp)
      exact List.chain'_cons.mpr ⟨hprev, ih b hcont⟩
    · rw [if_pos (by simpa using hprev)] at hv
      exact absurd hv (by simp)

theorem validate_with_options_chain (c : Blockchain) (skip : Bool)
    (hv : c.validate_with_options skip = some true) :
    List.Chain' (fun x y => y.header.prev_hash = x.double_sha256) c.blocks := by
  unfold Blockchain.validate_with_options at hv
  cases hbs : c.blocks with
  | nil => simp
  | cons b tl =>
    rw [hbs] at hv
    unfold validateFrom at hv
    have hcont : validateFrom skip (some b) tl = some true := by
      unfold validateBlockStep at hv
      split at hv
      · exact absurd hv (by simp)
      · split at hv
        · exact hv
        · cases hp : validate_pow b.header with
          | none => rw [hp] at hv; exact absurd hv (by simp)
          | some ok =>
            rw [hp] at hv
            simp only [Option.some_bind] at hv
            cases ok with
            | true => rwa [if_pos rfl] at hv
            | false =>
              rw [if_neg (by simp)] at hv
              exact absurd hv (by simp)
    exact validateFrom_chain skip tl b hcont

/-! ## Merkle lemmas -/

theorem merkleStep_odd_dup :
    ∀ (n : Nat) (hs : List (List Nat)), hs.length ≤ n → ∀ (hne : hs ≠ []),
      Odd hs.length → merkleStep hs = merkleStep (hs ++ [hs.getLast hne]) := by
  intro n
  induction n with
  | zero =>
    intro hs hlen hne _
    cases hs with
    | nil => exact absurd rfl hne
    | cons a tl => simp at hlen
  | succ n ih =>
    intro hs hlen hne hodd
    match hs, hne with
    | [a], _ => rfl
    | a :: b :: rest, _ =>
      have hro : Odd rest.length := by
        rw [Nat.odd_iff] at hodd ⊢
        simp only [List.length_cons] at hodd
        omega
      have hrne : rest ≠ [] := by
        intro hr
        subst hr
        rw [Nat.odd_iff] at hodd
        simp at hodd
      have hlast : (a :: b :: rest).getLast (by simp) = rest.getLast hrne := by
        rw [List.getLast_cons (by simp), List.getLast_cons hrne]
      show Hyperion.double_sha256 (a ++ b) :: merkleStep rest =
        merkleStep ((a :: b :: rest) ++ [(a :: b :: rest).getLast (by simp)])
      rw [hlast]
      show Hyperion.double_sha256 (a ++ b) :: merkleStep rest =
        Hyperion.double_sha256 (a ++ b) ::
          merkleStep (rest ++ [rest.getLast hrne])
      rw [ih rest (by simp at hlen; omega) hrne hro]

/-! ## Mempool lemmas -/

theorem submit_mempool_foldl :
    ∀ (txs : List Transaction) (pl : List Transaction),
      (txs.foldl Mempool.remove_tx ⟨pl⟩).txs =
        pl.filter (fun t => decide (∀ btx ∈ txs,
          t.double_sha256 ≠ btx.double_sha256)) := by
  intro txs
  induction txs with
  | nil =>
    intro pl
    simp [List.foldl]
  | cons btx rest ih =>
    intro pl
    show (rest.foldl Mempool.remove_tx (Mempool.remove_tx ⟨pl⟩ btx)).txs = _
    rw [show Mempool.remove_tx ⟨pl⟩ btx =
      ⟨pl.filter (fun t => t.double_sha256 ≠ btx.double_sha256)⟩ from rfl]
    rw [ih]
    rw [List.filter_filter]
    apply List.filter_congr
    intro t _
    simp only [List.forall_mem_cons, Bool.decide_and, Bool.and_comm]

/-! ## Retarget clamp -/

/-- The source's overflow clamp (`target.bits() > 256` replaced by the
all-ones 32-byte value) is exactly a `min` with `2 ^ 256 - 1`. -/
theorem clamp_eq_min (t : Nat) :
    (if 256 < Nat.log2 t + 1 ∧ t ≠ 0 then beNat (List.replicate 32 0xff)
     else t) = min t (2 ^ 256 - 1) := by
  have hff : beNat (List.replicate 32 0xff) = 2 ^ 256 - 1 := by decide
  by_cases ht : t = 0
  · subst ht
    rw [if_neg (by simp)]
    simp
  · rcases Nat.lt_or_ge t (2 ^ 256) with hlt | hge
    · rw [if_neg (by
        intro hcond
        have := (Nat.log2_lt ht).mpr hlt
        omega)]
      exact (Nat.min_eq_left (by omega)).symm
    · rw [if_pos (by
        refine ⟨?_, ht⟩
        have : ¬ Nat.log2 t < 256 := fun hc => by
          have := (Nat.log2_lt ht).mp hc
          omega
        omega)]
      rw [hff]
      exact (Nat.min_eq_right (by omega)).symm

/-! ## Claims -/

/-- Claim C6: `compute_merkle_root` returns 32 zero bytes on the empty
transaction list and `hash(tx0)` on a single-transaction list; each layer
combines adjacent pairs as `double_sha256(left ++ right)`, and a layer of odd
length pairs its last element with itself (appending a copy of the last
element leaves the layer step unchanged). -/
theorem claim6_merkle_root :
    compute_merkle_root [] = List.replicate 32 0 ∧
    (∀ tx : Transaction, compute_merkle_root [tx] = tx.double_sha256) ∧
    (∀ (a b : List Nat) (rest : List (List Nat)),
      merkleStep (a :: b :: rest) =
        Hyperion.double_sha256 (a ++ b) :: merkleStep rest) ∧
    (∀ (hs : List (List Nat)) (hne : hs ≠ []), Odd hs.length →
      merkleStep hs = merkleStep (hs ++ [hs.getLast hne])) :=
  ⟨rfl, fun _ => rfl, fun _ _ _ => rfl,
   fun hs hne hodd => merkleStep_odd_dup hs.length hs le_rfl hne hodd⟩

/-- Witness for C6: the duplication rule applied to a concrete odd layer,
and the empty-list boundary case. -/
theorem claim6_witness :
    merkleStep [[0], [1], [2]] =
      merkleStep ([[0], [1], [2]] ++
        [([[0], [1], [2]] : List (List Nat)).getLast (by simp)]) ∧
    compute_merkle_root [] = List.replicate 32 0 :=
  ⟨claim6_merkle_root.2.2.2 [[0], [1], [2]] (by simp) (by decide),
   claim6_merkle_root.1⟩

/-- Claim C10: `Mempool::add_tx` appends without deduplication (the pool always
grows by one entry, hash-equal duplicates included); `Mempool::remove_tx`
keeps exactly the entries whose double-SHA256 differs from the given
transaction's; the mempool update of an accepted `submit_block` (a
`remove_tx` per block transaction) filters out every entry whose hash
matches any of the block's transactions, leaving all other entries unchanged
and in their original order (the result is a sublist of the pool). -/
theorem claim10_mempool :
    (∀ (p : Mempool) (tx : Transaction),
      (p.add_tx tx).txs = p.txs ++ [tx] ∧
      (p.add_tx tx).txs.length = p.txs.length + 1) ∧
    (∀ (p : Mempool) (tx : Transaction),
      (p.remove_tx tx).txs =
        p.txs.filter (fun t => t.double_sha256 ≠ tx.double_sha256)) ∧
    (∀ (p : Mempool) (b : Block),
      (submitBlockMempool p b).txs =
        p.txs.filter (fun t => decide (∀ btx ∈ b.transactions,
          t.double_sha256 ≠ btx.double_sha256))) ∧
    (∀ (p : Mempool) (b : Block),
      (submitBlockMempool p b).txs.Sublist p.txs) := by
  have hsub : ∀ (p : Mempool) (b : Block),
      (submitBlockMempool p b).txs =
        p.txs.filter (fun t => decide (∀ btx ∈ b.transactions,
          t.double_sha256 ≠ btx.double_sha256)) := fun p b =>
    submit_mempool_foldl b.transactions p.txs
  refine ⟨fun p tx => ⟨rfl, by simp [Mempool.add_tx]⟩, fun p tx => rfl,
    hsub, fun p b => ?_⟩
  rw [hsub p b]
  exact List.filter_sublist _

/-- Claim C9: `compact_to_target` is partial: whenever the decoded value fits
in 32 bytes the result is that value zero-padded on the left to 32 big-endian
bytes (length 32, same numeric value), it returns a value exactly when the
decoded target is below `2 ^ 256`, and at `0x227fffff` the index computation
underflows and the function panics. -/
theorem claim9_compact_padding :
    (∀ c tb, compact_to_target c = some tb →
      tb.length = 32 ∧ beNat tb = compactVal c) ∧
    (∀ c, (compact_to_target c).isSome ↔ compactVal c < 2 ^ 256) ∧
    compact_to_target 0x227fffff = none :=
  ⟨compact_to_target_val, compact_to_target_isSome, by decide⟩

/-- Witness for C9: the Bitcoin difficulty-1 compact decodes to the padded
target `00 00 00 00 ff ff 00 …`. -/
theorem claim9_witness :
    compact_to_target 0x1d00ffff =
      some (List.replicate 4 0 ++ 0xff :: 0xff :: List.replicate 26 0) ∧
    (List.replicate 4 (0 : Nat) ++ 0xff :: 0xff :: List.replicate 26 0).length
      = 32 ∧
    beNat (List.replicate 4 0 ++ 0xff :: 0xff :: List.replicate 26 0) =
      compactVal 0x1d00ffff :=
  ⟨by decide,
   (claim9_compact_padding.1 0x1d00ffff _ (by decide)).1,
   (claim9_compact_padding.1 0x1d00ffff _ (by decide)).2⟩

/-- Counterexample for C3: `0x00000001` has a clear mantissa top bit, yet
`target_to_compact (compact_to_target 0x00000001)` is `0x01000000`, not
`0x00000001`: the claimed round-trip set is too large. -/
theorem claim3_counterexample :
    0x00000001 &&& 0x00800000 = 0 ∧
    (compact_to_target 0x00000001).map (fun tb => target_to_compact (beNat tb))
      = some 0x01000000 ∧
    (0x01000000 : Nat) ≠ 0x00000001 := by decide

/-- Claim C3 as amended: the round-trip
`target_to_compact (compact_to_target c) = c` holds for every canonical
compact: mantissa top bit clear, mantissa normalized
(`0x8000 ≤ mantissa ≤ 0x7fffff`), and exponent between 3 and 32 (so that the
decoded target exists and no mantissa bytes are shifted out). -/
theorem claim3_roundtrip (c : Nat) (_hc : c < 2 ^ 32)
    (hbit : c &&& 0x00800000 = 0)
    (hm : 2 ^ 15 ≤ c &&& 0x007fffff)
    (he_lo : 3 ≤ c >>> 24) (he_hi : c >>> 24 ≤ 32) :
    (compact_to_target c).map (fun tb => target_to_compact (beNat tb)) =
      some c := by
  have hval : compactVal c = (c &&& 0x7fffff) * 256 ^ (c >>> 24 - 3) :=
    compactVal_shift c he_lo
  have hmlt : c &&& 0x7fffff < 2 ^ 23 := mask23_lt c
  have hsmall : compactVal c < 2 ^ 256 := by
    rw [hval]
    calc (c &&& 0x7fffff) * 256 ^ (c >>> 24 - 3)
        ≤ 2 ^ 23 * 256 ^ 29 :=
          Nat.mul_le_mul (by omega)
            (Nat.pow_le_pow_right (by norm_num) (by omega))
      _ < 2 ^ 256 := by norm_num
  obtain ⟨tb, htb⟩ :=
    Option.isSome_iff_exists.mp ((compact_to_target_isSome c).mpr hsmall)
  rw [htb]
  simp only [Option.map_some', Option.some.injEq]
  rw [(compact_to_target_val c tb htb).2, hval,
    target_to_compact_shifted (c &&& 0x7fffff) (c >>> 24 - 3) hm hmlt
      (by omega)]
  have he : c >>> 24 = c / 2 ^ 24 := shiftRight_div c 24
  have hm' : c &&& 0x7fffff = c % 2 ^ 23 := by
    rw [show (0x7fffff : Nat) = 2 ^ 23 - 1 by norm_num, land_mod]
  have hb23 : c / 2 ^ 23 % 2 = 0 := by
    have h1 := Nat.and_two_pow c 23
    rw [show (0x00800000 : Nat) = 2 ^ 23 by norm_num] at hbit
    rw [hbit] at h1
    have htb23 : c.testBit 23 = false := by
      cases hcb : c.testBit 23 with
      | false => rfl
      | true => rw [hcb] at h1; simp at h1
    rw [Nat.testBit_to_div_mod] at htb23
    simp only [decide_eq_false_iff_not] at htb23
    omega
  rw [he] at he_lo ⊢
  rw [hm']
  omega

/-- Witness for C3: the canonical compact `0x1d00ffff` round-trips. -/
theorem claim3_witness :
    (compact_to_target 0x1d00ffff).map
      (fun tb => target_to_compact (beNat tb)) = some 0x1d00ffff :=
  claim3_roundtrip 0x1d00ffff (by decide) (by decide) (by decide) (by decide)
    (by decide)

/-- Claim C8: whenever `mine_block` terminates it returns a header that
satisfies `validate_pow`, agrees with the input on every field except the
nonce, and carries the least nonce in the search order (starting at 0,
incrementing): every smaller nonce fails the proof of work. -/
theorem claim8_mine_block (h hm : Header) (hmine : mine_block h = some hm) :
    validate_pow hm = some true ∧
    hm.version = h.version ∧ hm.time = h.time ∧
    hm.difficulty_compact = h.difficulty_compact ∧
    hm.prev_hash = h.prev_hash ∧ hm.merkle_root = h.merkle_root ∧
    (∀ j, j < hm.nonce → validate_pow { h with nonce := j } = some false) := by
  unfold mine_block at hmine
  cases hf : findNonce h 0 (2 ^ 64) with
  | none => rw [hf] at hmine; exact absurd hmine (by simp)
  | some n =>
    rw [hf] at hmine
    simp only [Option.map_some', Option.some.injEq] at hmine
    obtain ⟨-, h2, h3⟩ := findNonce_spec h (2 ^ 64) 0 n (by omega) hf
    subst hmine
    exact ⟨h2, rfl, rfl, rfl, rfl, rfl, fun j hj => h3 j (Nat.zero_le j) hj⟩

/-- Witness for C8: `hdrMine` mines to nonce 2; nonces 0 and 1 fail its
target. -/
theorem claim8_witness :
    mine_block hdrMine = some { hdrMine with nonce := 2 } ∧
    validate_pow { hdrMine with nonce := 2 } = some true ∧
    validate_pow { hdrMine with nonce := 0 } = some false ∧
    validate_pow { hdrMine with nonce := 1 } = some false := by
  have hthm := claim8_mine_block hdrMine { hdrMine with nonce := 2 } (by decide)
  exact ⟨by decide, hthm.1,
    hthm.2.2.2.2.2.2 0 (by decide), hthm.2.2.2.2.2.2 1 (by decide)⟩

/-- Counterexample for C7: a ten-block chain that is due for retargeting but
whose tail compact (`0x21010000`, decoding to `2 ^ 256`) makes
`compact_to_target` panic: `adjust_difficulty` panics instead of returning a
compact. -/
theorem claim7_counterexample :
    10 ≤ chainOverflow.blocks.length ∧
    chainOverflow.blocks.length % 10 = 0 ∧
    adjust_difficulty chainOverflow = none := by decide

/-- Claim C7 as amended: for a non-empty chain, `adjust_difficulty` returns the
tail's compact unchanged off the 10-block boundary; on the boundary —
provided the tail's target decodes within 32 bytes — it returns
`target_to_compact` of the tail target scaled by
`max 1 (last.time − first.time)` (saturating subtraction) over 6000 seconds,
clamped to at most `2 ^ 256 − 1`, where `first` sits at height `len − 10`. -/
theorem claim7_adjust (c : Blockchain) (tail : Block)
    (htail : c.blocks.getLast? = some tail) :
    ((c.blocks.length < 10 ∨ c.blocks.length % 10 ≠ 0) →
      adjust_difficulty c = some tail.header.difficulty_compact) ∧
    (∀ first tb, 10 ≤ c.blocks.length → c.blocks.length % 10 = 0 →
      c.blocks.get? (c.blocks.length - 10) = some first →
      compact_to_target tail.header.difficulty_compact = some tb →
      adjust_difficulty c = some (target_to_compact
        (min (beNat tb * max 1 (tail.header.time - first.header.time) / 6000)
          (2 ^ 256 - 1)))) := by
  constructor
  · intro hcond
    unfold adjust_difficulty
    rw [htail]
    simp only [Option.some_bind]
    rw [if_pos hcond]
  · intro first tb h10 hmod hget htb
    unfold adjust_difficulty
    rw [htail]
    simp only [Option.some_bind]
    rw [if_neg (by omega), hget]
    simp only [Option.some_bind]
    rw [htb]
    simp only [Option.some_bind]
    rw [clamp_eq_min]
    rw [Nat.max_comm (tail.header.time - first.header.time) 1]

/-- Witness for C7: off the boundary the compact is unchanged (`chainA`);
on the boundary (`chainRetarget`, 10 blocks spanning 1000 seconds) the
scaled-and-clamped formula is returned. -/
theorem claim7_witness :
    adjust_difficulty chainA = some 0x207fffff ∧
    adjust_difficulty chainRetarget = some (target_to_compact
      (min (beNat (0x7f :: 0xff :: 0xff :: List.replicate 29 0) *
          max 1 ((blkT 1000).header.time - (blkT 0).header.time) / 6000)
        (2 ^ 256 - 1))) :=
  ⟨(claim7_adjust chainA blkA (by decide)).1 (Or.inl (by decide)),
   (claim7_adjust chainRetarget (blkT 1000) (by decide)).2 (blkT 0)
     (0x7f :: 0xff :: 0xff :: List.replicate 29 0) (by decide) (by decide)
     (by decide) (by decide)⟩

/-- Counterexample for C1: a block whose `prev_hash` is the double-SHA256 of
the tail block's *header* is rejected with `InvalidPreviousHash`: the code
links blocks by the hash of the whole tail block, not of its header. -/
theorem claim1_counterexample :
    blkHeaderLinked.header.prev_hash = hdrA.double_sha256 ∧
    chainA.blocks.getLast? = some blkA ∧ blkA.header = hdrA ∧
    chainA.add_block blkHeaderLinked true =
      some (.inl BlockchainError.InvalidPreviousHash) :=
  ⟨rfl, rfl, rfl, by decide⟩

/-- Claim C1 as amended: `add_block` fails with `InvalidPreviousHash` exactly
when the block's `prev_hash` differs from the double-SHA256 of the canonical
bytes of the whole tail *block*; likewise a chain that passes
`validate_with_options` links every block to the double-SHA256 of its whole
predecessor block. -/
theorem claim1_prev_hash_link :
    (∀ (c : Blockchain) (b : Block) (tail : Block) (skip : Bool),
      c.blocks.getLast? = some tail →
      (c.add_block b skip = some (.inl .InvalidPreviousHash) ↔
        b.header.prev_hash ≠ tail.double_sha256)) ∧
    (∀ (c : Blockchain) (skip : Bool),
      c.validate_with_options skip = some true →
      List.Chain' (fun x y => y.header.prev_hash = x.double_sha256)
        c.blocks) := by
  constructor
  · intro c b tail skip hlast
    unfold Blockchain.add_block
    rw [hlast]
    simp only [Option.some_bind]
    constructor
    · intro hres
      by_cases hprev : b.header.prev_hash = tail.double_sha256
      · exfalso
        rw [if_neg (fun hn => hn hprev)] at hres
        split at hres
        · simp at hres
        · split at hres
          · simp at hres
          · cases hp : validate_pow b.header with
            | none => rw [hp] at hres; simp at hres
            | some ok =>
              rw [hp] at hres
              simp only [Option.some_bind] at hres
              cases ok with
              | true => rw [if_pos rfl] at hres; simp at hres
              | false => rw [if_neg (by simp)] at hres; simp at hres
      · exact hprev
    · intro hne
      rw [if_pos hne]
  · exact validate_with_options_chain

/-- Witness for C1: the iff applied at a concrete chain and block. -/
theorem claim1_witness :
    chainA.add_block blkHeaderLinked true =
      some (.inl BlockchainError.InvalidPreviousHash) :=
  (claim1_prev_hash_link.1 chainA blkHeaderLinked blkA true rfl).mpr
    (by decide)

/-- Claim C2: at a block with correct linkage and Merkle root whose proof of
work fails (target zero), `add_block(·, false)` returns
`InvalidMerkleRoot` — the source maps the PoW failure to the wrong error
kind (`blockchain.rs:44`), never constructing the claimed `InvalidPoW`. -/
theorem claim2_pow_error_kind :
    blkPoWFail.header.prev_hash = blkA.double_sha256 ∧
    compute_merkle_root blkPoWFail.transactions = blkPoWFail.header.merkle_root ∧
    validate_pow blkPoWFail.header = some false ∧
    chainA.add_block blkPoWFail false =
      some (.inl BlockchainError.InvalidMerkleRoot) ∧
    chainA.add_block blkPoWFail false ≠
      some (.inl BlockchainError.InvalidPoW) :=
  ⟨rfl, by decide, by decide, by decide, by decide⟩

/-- Counterexample for C4: the serialized genesis-like header is not the
full-width little-endian rendering the claim describes: `version = 1` is one
byte, `difficulty_compact = 0x207fffff` is a marker byte `0xfc` plus four
little-endian bytes, and the whole encoding is 72 bytes, not 84. -/
theorem claim4_counterexample :
    hdrA.serialize ≠ headerFixedWidthLE hdrA ∧
    hdrA.serialize =
      [0x01, 0x00, 0xfc, 0xff, 0xff, 0x7f, 0x20, 0x00] ++ zeros32 ++ zeros32 ∧
    hdrA.serialize.length = 72 ∧ (headerFixedWidthLE hdrA).length = 84 := by
  decide

/-- Claim C4 as amended: `Serializable::serialize` writes the integer fields in
bincode's variable-length encoding — one byte below 251, otherwise a marker
byte 251/252/253 followed by the full-width little-endian 2/4/8-byte
payload — with Header fields emitted in declaration order
`version, time, difficulty_compact, nonce, prev_hash, merkle_root`, and this
byte string is the preimage of the header's PoW hash. -/
theorem claim4_encoding :
    (∀ h : Header, h.serialize =
      vEnc h.version ++ vEnc h.time ++ vEnc h.difficulty_compact ++
        vEnc h.nonce ++ h.prev_hash ++ h.merkle_root) ∧
    (∀ n, n < 251 → vEnc n = [n]) ∧
    (∀ n, 251 ≤ n → n < 2 ^ 16 → vEnc n = 251 :: leBytesF 2 n) ∧
    (∀ n, 2 ^ 16 ≤ n → n < 2 ^ 32 → vEnc n = 252 :: leBytesF 4 n) ∧
    (∀ n, 2 ^ 32 ≤ n → n < 2 ^ 64 → vEnc n = 253 :: leBytesF 8 n) ∧
    (∀ k n, (leBytesF k n).length = k) ∧
    (∀ k n, n < 256 ^ k → leNat (leBytesF k n) = n) ∧
    (∀ h : Header, h.double_sha256 = Hyperion.double_sha256 h.serialize) := by
  refine ⟨fun _ => rfl, ?_, ?_, ?_, ?_, leBytesF_length, leNat_leBytesF,
    fun _ => rfl⟩
  · intro n hn
    simp [vEnc, hn]
  · intro n h1 h2
    unfold vEnc
    rw [if_neg (by omega), if_pos h2]
  · intro n h1 h2
    unfold vEnc
    rw [if_neg (by omega), if_neg (by omega), if_pos h2]
  · intro n h1 _
    unfold vEnc
    rw [if_neg (by omega), if_neg (by omega), if_neg (by omega)]

/-- Witness for C4: the varint branches and the field order at concrete
values. -/
theorem claim4_witness :
    vEnc 1 = [1] ∧ vEnc 0x207fffff = 252 :: leBytesF 4 0x207fffff ∧
    hdrA.serialize = vEnc 1 ++ vEnc 0 ++ vEnc 0x207fffff ++ vEnc 0 ++
      zeros32 ++ zeros32 :=
  ⟨claim4_encoding.2.1 1 (by decide),
   claim4_encoding.2.2.2.1 0x207fffff (by decide) (by decide),
   claim4_encoding.1 hdrA⟩

/-- Counterexample for C5: `from_bytes` does not reject trailing garbage: a
serialized header followed by an extra byte decodes successfully (bincode's
`decode_from_slice` reports the consumed length, which the source
discards). -/
theorem claim5_counterexample :
    Header.from_bytes (hdrA.serialize ++ [0]) = some hdrA := by decide

/-- Claim C5 as amended: for every well-formed `Header`, `Transaction`, `Block`
and `Blockchain`, `from_bytes (serialize x) = x`; decoding ignores any
trailing bytes (still returning `x`); and every strict prefix of
`serialize x` is rejected with a deserialization error. -/
theorem claim5_serialization :
    (∀ h : Header, h.wf →
      Header.from_bytes h.serialize = some h ∧
      (∀ extra, Header.from_bytes (h.serialize ++ extra) = some h) ∧
      (∀ p s, p ++ s = h.serialize → s ≠ [] → Header.from_bytes p = none)) ∧
    (∀ tx : Transaction, tx.wf →
      Transaction.from_bytes tx.serialize = some tx ∧
      (∀ extra, Transaction.from_bytes (tx.serialize ++ extra) = some tx) ∧
      (∀ p s, p ++ s = tx.serialize → s ≠ [] →
        Transaction.from_bytes p = none)) ∧
    (∀ b : Block, b.wf →
      Block.from_bytes b.serialize = some b ∧
      (∀ extra, Block.from_bytes (b.serialize ++ extra) = some b) ∧
      (∀ p s, p ++ s = b.serialize → s ≠ [] → Block.from_bytes p = none)) ∧
    (∀ c : Blockchain, c.wf →
      Blockchain.from_bytes c.serialize = some c ∧
      (∀ extra, Blockchain.from_bytes (c.serialize ++ extra) = some c) ∧
      (∀ p s, p ++ s = c.serialize → s ≠ [] →
        Blockchain.from_bytes p = none)) := by
  refine ⟨fun h hwf => ?_, fun tx hwf => ?_, fun b hwf => ?_, fun c hwf => ?_⟩
  · refine ⟨?_, fun extra => ?_, fun p s hps hs => ?_⟩
    · unfold Header.from_bytes
      have henc := dHeader_encode h hwf []
      rw [List.append_nil] at henc
      rw [henc]
      rfl
    · unfold Header.from_bytes
      rw [dHeader_encode h hwf extra]
      rfl
    · unfold Header.from_bytes
      rw [decode_trunc_none dHeader h h.serialize (dHeader_encode h hwf)
        dHeader_ext p s hps hs]
      rfl
  · refine ⟨?_, fun extra => ?_, fun p s hps hs => ?_⟩
    · unfold Transaction.from_bytes
      have henc := dTransaction_encode tx hwf []
      rw [List.append_nil] at henc
      rw [henc]
      rfl
    · unfold Transaction.from_bytes
      rw [dTransaction_encode tx hwf extra]
      rfl
    · unfold Transaction.from_bytes
      rw [decode_trunc_none dTransaction tx tx.serialize
        (dTransaction_encode tx hwf) dTransaction_ext p s hps hs]
      rfl
  · refine ⟨?_, fun extra => ?_, fun p s hps hs => ?_⟩
    · unfold Block.from_bytes
      have henc := dBlock_encode b hwf []
      rw [List.append_nil] at henc
      rw [henc]
      rfl
    · unfold Block.from_bytes
      rw [dBlock_encode b hwf extra]
      rfl
    · unfold Block.from_bytes
      rw [decode_trunc_none dBlock b b.serialize (dBlock_encode b hwf)
        dBlock_ext p s hps hs]
      rfl
  · refine ⟨?_, fun extra => ?_, fun p s hps hs => ?_⟩
    · unfold Blockchain.from_bytes
      have henc := dBlockchain_encode c hwf []
      rw [List.append_nil] at henc
      rw [henc]
      rfl
    · unfold Blockchain.from_bytes
      rw [dBlockchain_encode c hwf extra]
      rfl
    · unfold Blockchain.from_bytes
      rw [decode_trunc_none dBlockchain c c.serialize
        (dBlockchain_encode c hwf) dBlockchain_ext p s hps hs]
      rfl

/-- Witness for C5: round-trip, trailing-byte tolerance and truncation
rejection at a concrete header. -/
theorem claim5_witness :
    Header.from_bytes hdrA.serialize = some hdrA ∧
    Header.from_bytes (hdrA.serialize ++ [7]) = some hdrA ∧
    Header.from_bytes (hdrA.serialize.take 71) = none := by
  have hthm := claim5_serialization.1 hdrA (by decide)
  exact ⟨hthm.1, hthm.2.1 [7],
    hthm.2.2 (hdrA.serialize.take 71) (hdrA.serialize.drop 71) (by decide)
      (by decide)⟩

end Hyperion

